import Mathlib

/-!
A verification development for the AI-planner application.

The data model and the operations below are a shallow embedding of the
program's scheduling core (`buildFreeGrid`, the work-unit expansion inside
`autoPlan`, the greedy placement loop of `autoPlan`, `applyAction`) and of
the apply endpoint (the confirmation gate).

Modelling conventions:
* JavaScript numbers are modelled as integers (`ℤ`); every reachable state
  of the application stores integer minute values (the JSON schema of the
  proposal endpoint enforces integer fields, and the UI parses integers),
  so `Math.round` is the identity on the modelled domain.
* `Math.random`/`Date.now`-based id generation (`uid`) is modelled by an
  explicit id supply `gen : ℕ → String` together with a counter threaded
  through the run, and the wall-clock timestamp by an explicit `now`.
* The floating-point priority score (`scoreTask`, which uses `Math.pow`)
  is modelled by an abstract score function `score : Task → ℤ`; the
  scheduler only ever compares scores, so any total preorder realised by
  an integer-valued function covers the program's behaviour.
* JavaScript's stable `Array.prototype.sort` with a consistent comparator
  is modelled by `List.insertionSort`, which is stable.
* `toLowerCase()` in the apply endpoint is JavaScript's locale-independent
  Unicode default case conversion — an external, table-driven (and, at a
  final Greek sigma, context-sensitive) string function.  Like the
  floating-point score it is modelled by an abstract parameter
  `toLowerCase : String → String`; the gate theorem is quantified over
  it, so it holds in particular at the function the runtime implements.
`Task` clashes with a core Lean type, so the whole embedding lives in
the `Planner` namespace.
-/

namespace Planner

/-- The seven weekday tokens, `DAYS` in the source. -/
inductive Day where
  | mon | tue | wed | thu | fri | sat | sun
deriving DecidableEq, Repr

/-- `DAYS` — the canonical Mon..Sun iteration order. -/
def DAYS : List Day := [.mon, .tue, .wed, .thu, .fri, .sat, .sun]

/-- `DAYS.indexOf`, used by the final sort of `autoPlan`. -/
def Day.idx : Day → ℕ
  | .mon => 0 | .tue => 1 | .wed => 2 | .thu => 3 | .fri => 4 | .sat => 5 | .sun => 6

/-- Task priorities. -/
inductive TaskPriority where
  | low | medium | high
deriving DecidableEq, Repr

/-- `Preferences`.  `maxBlocksPerDay` is a count (the schema enforces an
integer ≥ 1); the remaining numeric fields are modelled as integers. -/
structure Preferences where
  workBlockMins : ℤ
  maxBlocksPerDay : ℕ
  startHour : ℤ
  endHour : ℤ
deriving DecidableEq, Repr

/-- `BusyBlock`. -/
structure BusyBlock where
  id : String
  day : Day
  startMin : ℤ
  endMin : ℤ
  label : String
deriving DecidableEq, Repr

/-- `PlannedBlock`.  `type` is always the string `"plan"` in the source;
`taskId` and `label` are optional in the TS type. -/
structure PlannedBlock where
  id : String
  day : Day
  startMin : ℤ
  endMin : ℤ
  type : String
  taskId : Option String
  label : Option String
deriving DecidableEq, Repr

/-- `Task`.  `dueDate` is kept as the raw `YYYY-MM-DD` string; it is only
consumed by the (abstracted) score function. -/
structure Task where
  id : String
  title : String
  dueDate : String
  priority : TaskPriority
  estimateMins : ℤ
  done : Bool
  createdAt : ℤ
deriving DecidableEq, Repr

/-- `AppState`. -/
structure AppState where
  preferences : Preferences
  busyBlocks : List BusyBlock
  plannedBlocks : List PlannedBlock
  tasks : List Task
deriving DecidableEq, Repr

/-- `clamp(n, a, b) = Math.max(a, Math.min(b, n))`. -/
def clamp (n a b : ℤ) : ℤ := max a (min b n)

/-- A free interval `{start, end}`; the `end` field is called `stop`
because `end` is a Lean keyword. -/
structure Ivl where
  start : ℤ
  stop : ℤ
deriving DecidableEq, Repr

/-- Interval length `end - start`. -/
def ivlLen (s : Ivl) : ℤ := s.stop - s.start

/-- One busy block subtracted from one free interval: the body of the
inner `for (const s of slots)` loop of `buildFreeGrid`.  `bs`/`be` are the
busy block's `startMin`/`endMin`. -/
def subPieces (bs be : ℤ) (s : Ivl) : List Ivl :=
  if be ≤ s.start ∨ s.stop ≤ bs then [s]
  else
    (if s.start < bs then [⟨s.start, bs⟩] else []) ++
    (if be < s.stop then [⟨be, s.stop⟩] else [])

/-- Ordering of intervals by `start`, the comparator
`(a,b2) => a.start - b2.start` of `buildFreeGrid`. -/
def ivlLeStart (a b : Ivl) : Prop := a.start ≤ b.start

instance : DecidableRel ivlLeStart := fun a b => Int.decLe a.start b.start

/-- The `≥ 15` minutes length filter used by `buildFreeGrid` and the
placement loop. -/
def bigIvl (x : Ivl) : Bool := decide (15 ≤ x.stop - x.start)

/-- Processing one busy block against one day's slot list:
`next.filter(x => x.end - x.start >= 15).sort((a,b2) => a.start - b2.start)`. -/
def stepSlots (bs be : ℤ) (slots : List Ivl) : List Ivl :=
  List.insertionSort ivlLeStart ((slots.flatMap (subPieces bs be)).filter bigIvl)

/-- `buildFreeGrid(preferences, busyBlocks)`: start from the single window
`[startHour*60, endHour*60)` on every day and subtract the busy blocks in
input order. -/
def buildFreeGrid (p : Preferences) (busyBlocks : List BusyBlock) : Day → List Ivl :=
  busyBlocks.foldl
    (fun free b => fun d =>
      if d = b.day then stepSlots b.startMin b.endMin (free b.day) else free d)
    (fun _ => [⟨p.startHour * 60, p.endHour * 60⟩])

/-- A transient work unit (the record pushed into `units` in `autoPlan`). -/
structure WorkUnit where
  taskId : String
  label : String
  mins : ℤ
  score : ℤ
deriving DecidableEq, Repr

/-- `Math.ceil(a / b)` on integers (exact for `b ≠ 0`). -/
def jsCeilDiv (a b : ℤ) : ℤ := -((-a).fdiv b)

/-- The label of part `i` (0-based) of `parts`:
`` `${title} (Part ${i+1}/${parts})` ``. -/
def partLabel (title : String) (i parts : ℕ) : String :=
  title ++ " (Part " ++ Nat.repr (i + 1) ++ "/" ++ Nat.repr parts ++ ")"

/-- The work-unit expansion for one task (the body of the `for (const t of
tasks)` loop of `autoPlan`).  On the integer-modelled domain `Math.round`
is the identity, so a part's pushed duration is `max 15 mins`. -/
def expandTask (block : ℤ) (score : Task → ℤ) (t : Task) : List WorkUnit :=
  if t.done then []
  else
    let remaining := max 0 t.estimateMins
    if remaining ≤ 0 then []
    else
      let parts : ℕ := (max 1 (jsCeilDiv remaining block)).toNat
      (List.range parts).map fun i =>
        let mins : ℤ := if i = parts - 1 then remaining - block * ((parts : ℤ) - 1) else block
        { taskId := t.id
          label := if parts = 1 then t.title else partLabel t.title i parts
          mins := max 15 mins
          score := score t }

/-- All work units of a task list, in task order. -/
def expandUnits (block : ℤ) (score : Task → ℤ) (tasks : List Task) : List WorkUnit :=
  tasks.flatMap (expandTask block score)

/-- The stable descending-score order `(a,b) => b.score - a.score`:
`a` may precede `b` iff `b.score ≤ a.score`. -/
def unitGe (a b : WorkUnit) : Prop := b.score ≤ a.score

instance : DecidableRel unitGe := fun a b => Int.decLe b.score a.score

/-- The mutable state of one `autoPlan` run: the free grid, the `planned`
accumulator, the `dailyCount` record and the id counter. -/
structure SchedState where
  free : Day → List Ivl
  planned : List PlannedBlock
  count : Day → ℕ
  ctr : ℕ

/-- First-fit scan of one day's segment list: returns the chosen segment
together with the spliced list (`segs.splice(si, 1, ...nextSegs)`), or
`none` when no segment is long enough. -/
def splitFirstFit (m : ℤ) : List Ivl → Option (Ivl × List Ivl)
  | [] => none
  | s :: rest =>
    if m ≤ s.stop - s.start then
      some (s, (if s.start + m < s.stop then [⟨s.start + m, s.stop⟩] else []) ++ rest)
    else
      match splitFirstFit m rest with
      | none => none
      | some (c, rest') => some (c, s :: rest')

/-- `p.taskId === u.taskId && p.label === u.label`. -/
def matchesUnit (u : WorkUnit) (p : PlannedBlock) : Bool :=
  p.taskId == some u.taskId && p.label == some u.label

/-- Attempt to place unit `u` on day `d`: the inner `for (si...)` loop of
`autoPlan` including the planned push, counter increment and the `≥ 15`
refiltering of the spliced segment list. -/
def tryDay (gen : ℕ → String) (u : WorkUnit) (d : Day) (st : SchedState) : SchedState :=
  match splitFirstFit u.mins (st.free d) with
  | none => st
  | some (s, segs') =>
    { free := fun d' => if d' = d then segs'.filter bigIvl else st.free d'
      planned := st.planned ++
        [{ id := gen st.ctr, day := d, startMin := s.start, endMin := s.start + u.mins,
           type := "plan", taskId := some u.taskId, label := some u.label }]
      count := fun d' => if d' = d then st.count d + 1 else st.count d'
      ctr := st.ctr + 1 }

/-- The `for (const day of DAYS)` loop for one unit: skip a saturated day
(`continue` also skips the placement check), otherwise try the day and
break as soon as some planned block matches the unit. -/
def placeUnit (gen : ℕ → String) (maxB : ℕ) (u : WorkUnit) :
    List Day → SchedState → SchedState
  | [], st => st
  | d :: ds, st =>
    if maxB ≤ st.count d then placeUnit gen maxB u ds st
    else
      let st' := tryDay gen u d st
      if st'.planned.any (matchesUnit u) then st' else placeUnit gen maxB u ds st'

/-- Ordering of the final output:
`(a,b) => DAYS.indexOf(a.day) - DAYS.indexOf(b.day) || a.startMin - b.startMin`. -/
def plannedLe (a b : PlannedBlock) : Prop :=
  a.day.idx < b.day.idx ∨ (a.day.idx = b.day.idx ∧ a.startMin ≤ b.startMin)

instance : DecidableRel plannedLe := fun a b =>
  inferInstanceAs (Decidable (a.day.idx < b.day.idx ∨ (a.day.idx = b.day.idx ∧ a.startMin ≤ b.startMin)))

/-- The scheduler state after processing a unit list. -/
def runUnits (gen : ℕ → String) (maxB : ℕ) (units : List WorkUnit) (st : SchedState) :
    SchedState :=
  units.foldl (fun st u => placeUnit gen maxB u DAYS st) st

/-- `autoPlan(preferences, busyBlocks, tasks)`. -/
def autoPlan (gen : ℕ → String) (score : Task → ℤ) (p : Preferences)
    (busyBlocks : List BusyBlock) (tasks : List Task) : List PlannedBlock :=
  let free := buildFreeGrid p busyBlocks
  let units := expandUnits p.workBlockMins score tasks
  let sorted := List.insertionSort unitGe units
  let st := runUnits gen p.maxBlocksPerDay sorted ⟨free, [], fun _ => 0, 0⟩
  List.insertionSort plannedLe st.planned

/-- `Partial<Preferences>` as carried by an AI action. -/
structure ActionPrefs where
  workBlockMins : Option ℤ
  maxBlocksPerDay : Option ℕ
  startHour : Option ℤ
  endHour : Option ℤ
deriving DecidableEq, Repr

/-- A busy-block spec inside an AI action. -/
structure BusySpec where
  day : Day
  startMin : ℤ
  endMin : ℤ
  label : Option String
deriving DecidableEq, Repr

/-- A task spec inside an AI action. -/
structure TaskSpec where
  title : String
  dueDate : String
  priority : Option TaskPriority
  estimateMins : Option ℤ
deriving DecidableEq, Repr

/-- `AIAction`. -/
structure AIAction where
  preferences : Option ActionPrefs
  addBusyBlocks : Option (List BusySpec)
  addTasks : Option (List TaskSpec)
  replan : Option Bool
deriving DecidableEq, Repr

/-- `{ ...next.preferences, ...action.preferences }`. -/
def mergePrefs (p : Preferences) (ap : ActionPrefs) : Preferences :=
  { workBlockMins := ap.workBlockMins.getD p.workBlockMins
    maxBlocksPerDay := ap.maxBlocksPerDay.getD p.maxBlocksPerDay
    startHour := ap.startHour.getD p.startHour
    endHour := ap.endHour.getD p.endHour }

/-- One created busy block (`uid("busy")` modelled by `gen (ctr + i)`). -/
def mkBusy (gen : ℕ → String) (ctr i : ℕ) (b : BusySpec) : BusyBlock :=
  { id := gen (ctr + i), day := b.day, startMin := b.startMin, endMin := b.endMin
    label := b.label.getD "Busy" }

/-- One created task: default priority `"medium"`, estimate
`clamp(Number(estimateMins ?? 60), 15, 1440)`, `done = false`,
`createdAt = Date.now()`. -/
def mkTask (gen : ℕ → String) (now : ℤ) (ctr i : ℕ) (t : TaskSpec) : Task :=
  { id := gen (ctr + i), title := t.title, dueDate := t.dueDate
    priority := t.priority.getD .medium
    estimateMins := clamp (t.estimateMins.getD 60) 15 1440
    done := false, createdAt := now }

/-- Number of ids consumed by the busy-block specs of an action
(the `action.addBusyBlocks?.length` guard skips empty lists). -/
def busyIdCount (action : AIAction) : ℕ :=
  match action.addBusyBlocks with
  | some l => if l.isEmpty then 0 else l.length
  | none => 0

/-- Number of ids consumed by the task specs of an action. -/
def taskIdCount (action : AIAction) : ℕ :=
  match action.addTasks with
  | some l => if l.isEmpty then 0 else l.length
  | none => 0

/-- The merge phase of `applyAction`: preferences overwrite, busy blocks
appended, tasks prepended.  `plannedBlocks` are untouched by the merge. -/
def mergeAction (gen : ℕ → String) (now : ℤ) (action : AIAction) (prev : AppState) :
    AppState :=
  let p1 := match action.preferences with
    | some ap => mergePrefs prev.preferences ap
    | none => prev.preferences
  let busy1 := match action.addBusyBlocks with
    | some l =>
      if l.isEmpty then prev.busyBlocks
      else prev.busyBlocks ++ l.enum.map fun bi => mkBusy gen 0 bi.fst bi.snd
    | none => prev.busyBlocks
  let tasks1 := match action.addTasks with
    | some l =>
      if l.isEmpty then prev.tasks
      else (l.enum.map fun ti => mkTask gen now (busyIdCount action) ti.fst ti.snd) ++ prev.tasks
    | none => prev.tasks
  { preferences := p1, busyBlocks := busy1, plannedBlocks := prev.plannedBlocks
    tasks := tasks1 }

/-- `applyAction`: merge, then `if (action.replan) next = replanNow(next)`
— the scheduler runs only when `replan` is the boolean `true`. -/
def applyAction (gen : ℕ → String) (now : ℤ) (score : Task → ℤ) (action : AIAction)
    (prev : AppState) : AppState :=
  let merged := mergeAction gen now action prev
  if action.replan = some true then
    { merged with
      plannedBlocks :=
        autoPlan (fun n => gen (busyIdCount action + taskIdCount action + n)) score
          merged.preferences merged.busyBlocks merged.tasks }
  else merged

/-- The propose endpoint's post-processing:
`if (typeof parsed.action.replan !== "boolean") parsed.action.replan = true`. -/
def ensureReplanDefault (action : AIAction) : AIAction :=
  if action.replan.isNone then { action with replan := some true } else action

/-- The body of the apply endpoint's request after JSON parsing.
`userConfirmationText` is `none` when the field is not a string. -/
structure ApplyRequest where
  confirmationToken : Option String
  action : AIAction
  userConfirmationText : Option String

/-- The apply endpoint's response: `{ok: true, action}` or
`{error}` with an HTTP status. -/
inductive ApplyResponse where
  | accept (action : AIAction)
  | reject (status : ℕ) (error : String)
deriving DecidableEq

/-- The fixed affirmative vocabulary `okWords`. -/
def okWords : List String := ["confirmo", "confirm", "sí", "si", "ok", "dale", "aplica"]

/-- Does `needle` occur as a prefix of some suffix of the second list? -/
def inclAux (needle : List Char) : List Char → Bool
  | [] => needle.isEmpty
  | c :: rest => needle.isPrefixOf (c :: rest) || inclAux needle rest

/-- JavaScript `a.includes(b)` on strings. -/
def jsIncludes (a b : String) : Bool := inclAux b.toList a.toList

/-- A concrete lowercasing used to evaluate the gate theorem: ASCII
`Char.toLower` extended to the accented capital appearing in the
affirmative vocabulary, so that `accentToLower "SÍ" = "sí"` as under
JavaScript's `toLowerCase()`. -/
def accentToLower (s : String) : String :=
  ⟨s.data.map fun c => if c = 'Í' then 'í' else c.toLower⟩

/-- `typeof t === "string" && okWords.some(w => t.toLowerCase().includes(w))`,
for a given model `toLowerCase` of the runtime's Unicode lowercasing. -/
def confirmationOk (toLowerCase : String → String)
    (userConfirmationText : Option String) : Bool :=
  match userConfirmationText with
  | some t => okWords.any fun w => jsIncludes (toLowerCase t) w
  | none => false

/-- JavaScript truthiness of the token (`undefined`, `null` and `""` are
falsy). -/
def tokenTruthy (confirmationToken : Option String) : Bool :=
  match confirmationToken with
  | some t => !(t == "")
  | none => false

/-- The apply endpoint (`POST /api/apply`): the confirmation gate, for a
given model `toLowerCase` of the runtime's Unicode lowercasing. -/
def applyPost (toLowerCase : String → String) (req : ApplyRequest) :
    ApplyResponse :=
  if !(confirmationOk toLowerCase req.userConfirmationText) then
    .reject 400 "Confirmation required. Type 'confirmo' to apply."
  else if !(tokenTruthy req.confirmationToken) then
    .reject 400 "Missing confirmation token."
  else
    .accept req.action

/-! ### The confirmation gate (claim C4) -/

/-- C4: for every lowercasing function — in particular the Unicode one the
runtime implements — the apply endpoint accepts exactly when the utterance
is a string whose lowercased form contains an entry of the affirmative
vocabulary and the confirmation token is truthy; otherwise it rejects with
status 400, and a missing token is rejected regardless of the utterance. -/
theorem confirmation_gate_characterisation (toLowerCase : String → String)
    (req : ApplyRequest) :
    (applyPost toLowerCase req = .accept req.action ↔
      (∃ t, req.userConfirmationText = some t ∧
        ∃ w ∈ okWords, jsIncludes (toLowerCase t) w = true) ∧
      (∃ tok, req.confirmationToken = some tok ∧ tok ≠ "")) ∧
    (applyPost toLowerCase req = .accept req.action ∨
      ∃ msg, applyPost toLowerCase req = .reject 400 msg) ∧
    (req.confirmationToken = none →
      ∀ a, applyPost toLowerCase req ≠ .accept a) := by
  have hco : confirmationOk toLowerCase req.userConfirmationText = true ↔
      ∃ t, req.userConfirmationText = some t ∧
        ∃ w ∈ okWords, jsIncludes (toLowerCase t) w = true := by
    cases h : req.userConfirmationText with
    | none => simp [confirmationOk]
    | some t => simp [confirmationOk, List.any_eq_true]
  have htk : tokenTruthy req.confirmationToken = true ↔
      ∃ tok, req.confirmationToken = some tok ∧ tok ≠ "" := by
    cases h : req.confirmationToken with
    | none => simp [tokenTruthy]
    | some tok => simp [tokenTruthy]
  refine ⟨?_, ?_, ?_⟩
  · rw [← hco, ← htk]
    unfold applyPost
    cases hc : confirmationOk toLowerCase req.userConfirmationText <;>
      cases ht : tokenTruthy req.confirmationToken <;> simp
  · unfold applyPost
    cases hc : confirmationOk toLowerCase req.userConfirmationText <;>
      cases ht : tokenTruthy req.confirmationToken <;> simp
  · intro hnone a
    unfold applyPost
    cases hc : confirmationOk toLowerCase req.userConfirmationText <;>
      simp [tokenTruthy, hnone]

/-- Witness for C4: under a lowercasing that lowers the accented capital,
the utterance `"SÍ"` with a token present is accepted (it lowers to
`"sí"`, a vocabulary entry), and with the token absent the same utterance
is rejected. -/
theorem confirmation_gate_characterisation_witness :
    applyPost accentToLower ⟨some "tok", ⟨none, none, none, none⟩, some "SÍ"⟩ =
      .accept ⟨none, none, none, none⟩ ∧
    (⟨none, ⟨none, none, none, none⟩, some "SÍ"⟩ : ApplyRequest).confirmationToken
      = none ∧
    ∀ a, applyPost accentToLower ⟨none, ⟨none, none, none, none⟩, some "SÍ"⟩ ≠
      .accept a :=
  ⟨(confirmation_gate_characterisation accentToLower
      ⟨some "tok", ⟨none, none, none, none⟩, some "SÍ"⟩).1.mpr
      ⟨⟨"SÍ", rfl, "sí", by decide, by decide⟩, "tok", rfl, by decide⟩,
    rfl,
    (confirmation_gate_characterisation accentToLower
      ⟨none, ⟨none, none, none, none⟩, some "SÍ"⟩).2.2 rfl⟩

/-! ### Replan semantics of `applyAction` (claim C5) -/

/-- The id supply used by the scheduler re-run inside `applyAction`. -/
def replanGen (gen : ℕ → String) (action : AIAction) : ℕ → String :=
  fun n => gen (busyIdCount action + taskIdCount action + n)

/-- C5 counterexample data: an action with `replan` absent. -/
def staleBlock : PlannedBlock := ⟨"stale", .mon, 360, 420, "plan", none, none⟩

/-- C5 counterexample data: a state holding one stale planned block and no
tasks. -/
def stalePrev : AppState := ⟨⟨50, 3, 6, 22⟩, [], [staleBlock], []⟩

/-- C5 fails as stated: on an accepted action whose `replan` field is
absent, `applyAction` leaves the stale planned block in place, while a
scheduler re-run on the merged (task-free) state returns no blocks. -/
theorem applyAction_replan_absent_counterexample :
    (⟨none, none, none, none⟩ : AIAction).replan = none ∧
    (applyAction (fun _ => "x") 0 (fun _ => 0) ⟨none, none, none, none⟩ stalePrev).plannedBlocks
      = [staleBlock] ∧
    autoPlan (replanGen (fun _ => "x") ⟨none, none, none, none⟩) (fun _ => 0)
      stalePrev.preferences stalePrev.busyBlocks stalePrev.tasks = [] ∧
    [staleBlock] ≠ ([] : List PlannedBlock) := by
  refine ⟨rfl, by decide, by decide, by decide⟩

/-- C5 amended: `applyAction` re-runs the scheduler (replacing
`plannedBlocks` by its output on the just-merged state) exactly when the
action's `replan` field is the boolean `true`; when `replan` is `false`
*or absent* the planned blocks are left unchanged.  The `true` default
for an absent field is applied by the propose endpoint, not by the
applier. -/
theorem applyAction_replan_semantics (gen : ℕ → String) (now : ℤ) (score : Task → ℤ)
    (action : AIAction) (prev : AppState) :
    (action.replan = some true →
      (applyAction gen now score action prev).plannedBlocks =
        autoPlan (replanGen gen action) score
          (mergeAction gen now action prev).preferences
          (mergeAction gen now action prev).busyBlocks
          (mergeAction gen now action prev).tasks) ∧
    (action.replan = none ∨ action.replan = some false →
      (applyAction gen now score action prev).plannedBlocks = prev.plannedBlocks) ∧
    (ensureReplanDefault action).replan = some (action.replan.getD true) := by
  refine ⟨?_, ?_, ?_⟩
  · intro h
    simp [applyAction, h]
    rfl
  · intro h
    have hne : ¬ action.replan = some true := by
      rcases h with h | h <;> simp [h]
    simp [applyAction, hne, mergeAction]
  · cases h : action.replan <;> simp [ensureReplanDefault, h]

/-- Witness for C5 (amended): with `replan = some true` the planned list
is replaced by the scheduler output on the merged state, and with
`replan` absent it is untouched. -/
theorem applyAction_replan_semantics_witness :
    (applyAction (fun _ => "x") 0 (fun _ => 0) ⟨none, none, none, some true⟩ stalePrev).plannedBlocks
      = autoPlan (replanGen (fun _ => "x") ⟨none, none, none, some true⟩) (fun _ => 0)
          (mergeAction (fun _ => "x") 0 ⟨none, none, none, some true⟩ stalePrev).preferences
          (mergeAction (fun _ => "x") 0 ⟨none, none, none, some true⟩ stalePrev).busyBlocks
          (mergeAction (fun _ => "x") 0 ⟨none, none, none, some true⟩ stalePrev).tasks ∧
    (ensureReplanDefault ⟨none, none, none, none⟩).replan = some true :=
  ⟨(applyAction_replan_semantics (fun _ => "x") 0 (fun _ => 0)
      ⟨none, none, none, some true⟩ stalePrev).1 rfl,
    (applyAction_replan_semantics (fun _ => "x") 0 (fun _ => 0)
      ⟨none, none, none, none⟩ stalePrev).2.2⟩

/-! ### Task creation by `applyAction` (claim C8) -/

/-- The clamp always lands in `[15, 1440]`. -/
theorem clamp_mem_range (n : ℤ) : 15 ≤ clamp n 15 1440 ∧ clamp n 15 1440 ≤ 1440 := by
  unfold clamp
  constructor
  · exact le_max_left _ _
  · exact max_le (by norm_num) (min_le_left _ _)

/-- C8: every accepted action's task specs become tasks prepended before
the pre-existing ones; each gets priority `"medium"` when absent,
`done = false`, and an estimate equal to the given value (default 60)
clamped into `[15, 1440]` — out-of-range estimates are silently clamped,
never rejected. -/
theorem applyAction_task_creation (gen : ℕ → String) (now : ℤ) (score : Task → ℤ)
    (action : AIAction) (prev : AppState) (specs : List TaskSpec)
    (hspec : action.addTasks = some specs) (hne : specs ≠ []) :
    (applyAction gen now score action prev).tasks =
      (specs.enum.map fun ti => mkTask gen now (busyIdCount action) ti.fst ti.snd)
        ++ prev.tasks ∧
    ∀ ti ∈ specs.enum,
      (mkTask gen now (busyIdCount action) ti.fst ti.snd).priority
          = ti.snd.priority.getD .medium ∧
      (mkTask gen now (busyIdCount action) ti.fst ti.snd).done = false ∧
      (mkTask gen now (busyIdCount action) ti.fst ti.snd).estimateMins
          = clamp (ti.snd.estimateMins.getD 60) 15 1440 ∧
      15 ≤ (mkTask gen now (busyIdCount action) ti.fst ti.snd).estimateMins ∧
      (mkTask gen now (busyIdCount action) ti.fst ti.snd).estimateMins ≤ 1440 := by
  have hempty : specs.isEmpty = false := by
    cases specs with
    | nil => exact absurd rfl hne
    | cons a l => rfl
  constructor
  · have htasks : (mergeAction gen now action prev).tasks =
        (specs.enum.map fun ti => mkTask gen now (busyIdCount action) ti.fst ti.snd)
          ++ prev.tasks := by
      simp [mergeAction, hspec, hempty]
    by_cases h : action.replan = some true <;> simp [applyAction, h, htasks]
  · intro ti _
    exact ⟨rfl, rfl, rfl, (clamp_mem_range _).1, (clamp_mem_range _).2⟩

/-- Witness for C8 at a concrete action carrying one out-of-range spec. -/
theorem applyAction_task_creation_witness :
    (applyAction (fun _ => "x") 7 (fun _ => 0)
        ⟨none, none, some [⟨"T", "2026-01-02", none, some 100000⟩], none⟩ stalePrev).tasks
      = [mkTask (fun _ => "x") 7 0 0 ⟨"T", "2026-01-02", none, some 100000⟩] ∧
    (mkTask (fun _ => "x") 7 0 0 ⟨"T", "2026-01-02", none, some 100000⟩).estimateMins = 1440 := by
  have h := applyAction_task_creation (fun _ => "x") 7 (fun _ => 0)
    ⟨none, none, some [⟨"T", "2026-01-02", none, some 100000⟩], none⟩ stalePrev
    [⟨"T", "2026-01-02", none, some 100000⟩] rfl (by decide)
  refine ⟨?_, by decide⟩
  have h1 := h.1
  simpa [stalePrev, busyIdCount, List.enum] using h1

/-! ### Scheduler determinism modulo generated ids (claim C9) -/

/-- Clear the generated id of a planned block, keeping every other field. -/
def eraseId (b : PlannedBlock) : PlannedBlock := { b with id := "" }

/-- Two scheduler states that agree everywhere except possibly in the ids
of already-planned blocks. -/
def SchedRel (st1 st2 : SchedState) : Prop :=
  st1.free = st2.free ∧ st1.count = st2.count ∧ st1.ctr = st2.ctr ∧
    st1.planned.map eraseId = st2.planned.map eraseId

theorem matchesUnit_eraseId (u : WorkUnit) (p : PlannedBlock) :
    matchesUnit u (eraseId p) = matchesUnit u p := rfl

theorem any_matchesUnit_congr (u : WorkUnit) {l1 l2 : List PlannedBlock}
    (h : l1.map eraseId = l2.map eraseId) :
    l1.any (matchesUnit u) = l2.any (matchesUnit u) := by
  have h1 : l1.any (matchesUnit u) = (l1.map eraseId).any (matchesUnit u) := by
    rw [List.any_map]
    rfl
  have h2 : l2.any (matchesUnit u) = (l2.map eraseId).any (matchesUnit u) := by
    rw [List.any_map]
    rfl
  rw [h1, h2, h]

theorem tryDay_rel (gen1 gen2 : ℕ → String) (u : WorkUnit) (d : Day)
    {st1 st2 : SchedState} (h : SchedRel st1 st2) :
    SchedRel (tryDay gen1 u d st1) (tryDay gen2 u d st2) := by
  obtain ⟨hf, hc, hn, hp⟩ := h
  unfold tryDay
  rw [hf]
  cases hsp : splitFirstFit u.mins (st2.free d) with
  | none => exact ⟨hf, hc, hn, hp⟩
  | some pr =>
    obtain ⟨s, segs'⟩ := pr
    refine ⟨?_, ?_, ?_, ?_⟩
    · funext d'
      by_cases hd : d' = d <;> simp [hd, congrFun hf d']
    · funext d'
      by_cases hd : d' = d <;> simp [hd, congrFun hc d', congrFun hc d]
    · simp [hn]
    · simp only [List.map_append, hp, hn, List.map_cons, List.map_nil, eraseId]

theorem placeUnit_rel (gen1 gen2 : ℕ → String) (maxB : ℕ) (u : WorkUnit)
    (days : List Day) {st1 st2 : SchedState} (h : SchedRel st1 st2) :
    SchedRel (placeUnit gen1 maxB u days st1) (placeUnit gen2 maxB u days st2) := by
  induction days generalizing st1 st2 with
  | nil => exact h
  | cons d ds ih =>
    obtain ⟨hf, hc, hn, hp⟩ := h
    unfold placeUnit
    rw [hc]
    by_cases hguard : maxB ≤ st2.count d
    · simp only [hguard, if_pos]
      exact ih ⟨hf, hc, hn, hp⟩
    · simp only [hguard, if_neg, not_false_iff]
      have hrel' : SchedRel (tryDay gen1 u d st1) (tryDay gen2 u d st2) :=
        tryDay_rel gen1 gen2 u d ⟨hf, hc, hn, hp⟩
      rw [any_matchesUnit_congr u hrel'.2.2.2]
      cases hany : (tryDay gen2 u d st2).planned.any (matchesUnit u)
      · simp only [Bool.false_eq_true, if_neg, not_false_iff]
        exact ih hrel'
      · simp only [if_pos]
        exact hrel'

theorem runUnits_rel (gen1 gen2 : ℕ → String) (maxB : ℕ) (units : List WorkUnit)
    {st1 st2 : SchedState} (h : SchedRel st1 st2) :
    SchedRel (runUnits gen1 maxB units st1) (runUnits gen2 maxB units st2) := by
  induction units generalizing st1 st2 with
  | nil => exact h
  | cons u us ih => exact ih (placeUnit_rel gen1 gen2 maxB u DAYS h)

theorem plannedLe_eraseId (a b : PlannedBlock) :
    plannedLe a b ↔ plannedLe (eraseId a) (eraseId b) := Iff.rfl

/-- C9 amended: for a fixed input and a fixed score function (i.e. a fixed
"today"), two scheduler runs produce planned-block lists that are
identical in every field except possibly the generated `id`s. -/
theorem autoPlan_deterministic_modulo_ids (gen1 gen2 : ℕ → String) (score : Task → ℤ)
    (p : Preferences) (busyBlocks : List BusyBlock) (tasks : List Task) :
    (autoPlan gen1 score p busyBlocks tasks).map eraseId =
      (autoPlan gen2 score p busyBlocks tasks).map eraseId := by
  unfold autoPlan
  have hrel : SchedRel
      (runUnits gen1 p.maxBlocksPerDay
        (List.insertionSort unitGe (expandUnits p.workBlockMins score tasks))
        ⟨buildFreeGrid p busyBlocks, [], fun _ => 0, 0⟩)
      (runUnits gen2 p.maxBlocksPerDay
        (List.insertionSort unitGe (expandUnits p.workBlockMins score tasks))
        ⟨buildFreeGrid p busyBlocks, [], fun _ => 0, 0⟩) :=
    runUnits_rel gen1 gen2 _ _ ⟨rfl, rfl, rfl, rfl⟩
  rw [List.map_insertionSort plannedLe plannedLe eraseId _ (fun a _ b _ => plannedLe_eraseId a b),
    List.map_insertionSort plannedLe plannedLe eraseId _ (fun a _ b _ => plannedLe_eraseId a b),
    hrel.2.2.2]

/-- C9 fails as stated: with the program's random/time-based id source
modelled as an explicit supply, two runs on identical inputs can differ in
the `id` fields of the produced blocks. -/
theorem autoPlan_ids_not_deterministic :
    autoPlan (fun _ => "a") (fun _ => 0) ⟨50, 3, 6, 22⟩ []
        [⟨"t1", "Exam", "2026-01-01", .high, 50, false, 0⟩]
      ≠ autoPlan (fun _ => "b") (fun _ => 0) ⟨50, 3, 6, 22⟩ []
        [⟨"t1", "Exam", "2026-01-01", .high, 50, false, 0⟩] := by decide

/-! ### Work-unit expansion (claim C7) -/

theorem jsCeilDiv_bounds (a b : ℤ) (hb : 0 < b) :
    a ≤ jsCeilDiv a b * b ∧ (jsCeilDiv a b - 1) * b < a := by
  unfold jsCeilDiv
  rw [Int.fdiv_eq_ediv _ hb.le]
  have h1 : -a / b * b ≤ -a := Int.ediv_mul_le _ hb.ne'
  have h2 : -a < (-a / b + 1) * b := Int.lt_ediv_add_one_mul_self _ hb
  constructor
  · nlinarith
  · nlinarith

theorem jsCeilDiv_pos (a b : ℤ) (ha : 0 < a) (hb : 0 < b) : 1 ≤ jsCeilDiv a b := by
  by_contra hlt
  push_neg at hlt
  have hbd := (jsCeilDiv_bounds a b hb).1
  nlinarith

theorem sum_mins_const (f : ℕ → WorkUnit) (n : ℕ) (c : ℤ) (h : ∀ i < n, (f i).mins = c) :
    (((List.range n).map f).map WorkUnit.mins).sum = (n : ℤ) * c := by
  induction n with
  | zero => simp
  | succ m ih =>
    rw [List.range_succ, List.map_append, List.map_append, List.sum_append,
      ih (fun i hi => h i (by omega))]
    simp only [List.map_cons, List.map_nil, List.sum_cons, List.sum_nil,
      h m (by omega)]
    push_cast
    ring

/-- C7: a pending task with estimate `R > 0` and block size `B > 0` yields
exactly `max(1, ceil(R/B))` work units; each non-last unit's duration is
`B` (floored to 15), the last is `R - B*(parts-1)` (floored to 15), every
duration is at least 15, and the durations sum to `R` exactly whenever the
15-minute flooring bites nowhere; completed tasks and tasks with
non-positive estimates yield no units. -/
theorem expandTask_characterisation (block : ℤ) (score : Task → ℤ) (t : Task) :
    (t.done = true → expandTask block score t = []) ∧
    (t.estimateMins ≤ 0 → expandTask block score t = []) ∧
    (t.done = false → 0 < t.estimateMins → 0 < block →
      (expandTask block score t).length = (max 1 (jsCeilDiv t.estimateMins block)).toNat ∧
      (((expandTask block score t).length : ℤ) - 1) * block < t.estimateMins ∧
      t.estimateMins ≤ ((expandTask block score t).length : ℤ) * block ∧
      1 ≤ (expandTask block score t).length ∧
      (∀ i, i + 1 < (expandTask block score t).length →
        ((expandTask block score t)[i]?).map WorkUnit.mins = some (max 15 block)) ∧
      (((expandTask block score t)[(expandTask block score t).length - 1]?).map
          WorkUnit.mins =
        some (max 15 (t.estimateMins - block * (((expandTask block score t).length : ℤ) - 1)))) ∧
      (∀ u ∈ expandTask block score t, 15 ≤ u.mins) ∧
      (15 ≤ block →
        15 ≤ t.estimateMins - block * (((expandTask block score t).length : ℤ) - 1) →
        ((expandTask block score t).map WorkUnit.mins).sum = t.estimateMins)) := by
  refine ⟨?_, ?_, ?_⟩
  · intro h
    simp [expandTask, h]
  · intro h
    have : max 0 t.estimateMins ≤ 0 := by omega
    by_cases hd : t.done <;> simp [expandTask, hd, this]
  · intro hdone hpos hblock
    have hrem : max 0 t.estimateMins = t.estimateMins := by omega
    have hceil : 1 ≤ jsCeilDiv t.estimateMins block := jsCeilDiv_pos _ _ hpos hblock
    have hmax : max 1 (jsCeilDiv t.estimateMins block) = jsCeilDiv t.estimateMins block := by
      omega
    set P : ℕ := (max 1 (jsCeilDiv t.estimateMins block)).toNat with hP
    have hP1 : 1 ≤ P := by omega
    have hPcast : (P : ℤ) = jsCeilDiv t.estimateMins block := by
      rw [hP, hmax]
      omega
    have hfun : expandTask block score t = (List.range P).map fun i =>
        { taskId := t.id
          label := if P = 1 then t.title else partLabel t.title i P
          mins := max 15 (if i = P - 1 then t.estimateMins - block * ((P : ℤ) - 1) else block)
          score := score t } := by
      rw [expandTask]
      simp only [hdone, Bool.false_eq_true, if_neg, not_false_iff, hrem]
      rw [if_neg (by omega)]
    have hlen : (expandTask block score t).length = P := by
      rw [hfun]
      simp
    have hb1 := (jsCeilDiv_bounds t.estimateMins block hblock).1
    have hb2 := (jsCeilDiv_bounds t.estimateMins block hblock).2
    refine ⟨hlen, ?_, ?_, ?_, ?_, ?_, ?_, ?_⟩
    · rw [hlen, hPcast]
      exact hb2
    · rw [hlen, hPcast]
      exact hb1
    · omega
    · intro i hi
      rw [hlen] at hi
      have hi' : i < P := by omega
      rw [hfun]
      simp only [List.getElem?_map, List.getElem?_range, hi', if_pos, Option.map_some']
      rw [if_neg (by omega)]
    · rw [hlen, hfun]
      have hlt : P - 1 < P := by omega
      simp only [List.getElem?_map, List.getElem?_range, hlt, if_pos, Option.map_some']
    · intro u hu
      rw [hfun] at hu
      obtain ⟨i, _, rfl⟩ := List.mem_map.1 hu
      exact le_max_left _ _
    · intro hblock15 hlast15
      rw [hlen] at hlast15
      rw [hfun]
      have hrange : List.range P = List.range (P - 1) ++ [P - 1] := by
        conv_lhs => rw [show P = (P - 1) + 1 by omega]
        rw [List.range_succ]
      rw [hrange, List.map_append, List.map_append, List.sum_append]
      rw [sum_mins_const _ _ block (fun i hi => by
        simp only
        rw [if_neg (by omega)]
        omega)]
      simp only [List.map_cons, List.map_nil, List.sum_cons, List.sum_nil, if_true,
        add_zero]
      have hmaxlast : max 15 (t.estimateMins - block * ((P : ℤ) - 1))
          = t.estimateMins - block * ((P : ℤ) - 1) := by omega
      rw [hmaxlast]
      rw [Nat.cast_sub hP1]
      push_cast
      ring

/-- Witness for C7: a 120-minute task with block size 50 yields three
units whose durations sum to the estimate. -/
theorem expandTask_characterisation_witness :
    (⟨"t1", "Exam", "2026-01-01", .high, 120, false, 0⟩ : Task).done = false ∧
    (0 : ℤ) < (⟨"t1", "Exam", "2026-01-01", .high, 120, false, 0⟩ : Task).estimateMins ∧
    (0 : ℤ) < 50 ∧
    (expandTask 50 (fun _ => 0) ⟨"t1", "Exam", "2026-01-01", .high, 120, false, 0⟩).length
      = 3 ∧
    ((expandTask 50 (fun _ => 0)
        ⟨"t1", "Exam", "2026-01-01", .high, 120, false, 0⟩).map WorkUnit.mins).sum = 120 := by
  have h := (expandTask_characterisation 50 (fun _ => 0)
    ⟨"t1", "Exam", "2026-01-01", .high, 120, false, 0⟩).2.2 rfl (by decide) (by decide)
  refine ⟨rfl, by decide, by decide, ?_, ?_⟩
  · rw [h.1]
    decide
  · exact h.2.2.2.2.2.2.2 (by decide) (by decide)

/-! ### Interval machinery for the free-time computer (claims C1, C2, C6, C10) -/

/-- Disjoint-and-ordered: `a` ends no later than `b` starts. -/
def ivlSep (a b : Ivl) : Prop := a.stop ≤ b.start

/-- `iv` does not meet the busy span `[bs, be)`. -/
def ivlAvoid (iv : Ivl) (bs be : ℤ) : Prop := be ≤ iv.start ∨ iv.stop ≤ bs

theorem subPieces_cases {bs be : ℤ} {s x : Ivl} (hx : x ∈ subPieces bs be s) :
    (x = s ∧ (be ≤ s.start ∨ s.stop ≤ bs)) ∨
    (s.start < be ∧ bs < s.stop ∧
      ((x = ⟨s.start, bs⟩ ∧ s.start < bs) ∨ (x = ⟨be, s.stop⟩ ∧ be < s.stop))) := by
  unfold subPieces at hx
  split_ifs at hx with h1 h2 h3 h4 <;>
    simp only [List.mem_append, List.mem_cons, List.not_mem_nil, or_false, List.mem_nil_iff,
      false_or, List.mem_singleton] at hx <;>
    push_neg at * <;>
    first
    | (exact Or.inl ⟨hx, h1⟩)
    | (rcases hx with hx | hx <;> [exact Or.inr ⟨by omega, by omega, Or.inl ⟨hx, by omega⟩⟩;
        exact Or.inr ⟨by omega, by omega, Or.inr ⟨hx, by omega⟩⟩])
    | (exact Or.inr ⟨by omega, by omega, Or.inl ⟨hx, by omega⟩⟩)
    | (exact Or.inr ⟨by omega, by omega, Or.inr ⟨hx, by omega⟩⟩)

theorem subPieces_subset {bs be : ℤ} {s x : Ivl} (hx : x ∈ subPieces bs be s) :
    s.start ≤ x.start ∧ x.stop ≤ s.stop := by
  rcases subPieces_cases hx with ⟨rfl, _⟩ | ⟨h1, h2, ⟨rfl, h3⟩ | ⟨rfl, h3⟩⟩
  · exact ⟨le_refl _, le_refl _⟩
  · exact ⟨le_refl _, show bs ≤ s.stop by omega⟩
  · exact ⟨show s.start ≤ be by omega, le_refl _⟩

theorem subPieces_avoid {bs be : ℤ} {s x : Ivl} (hx : x ∈ subPieces bs be s) :
    ivlAvoid x bs be := by
  rcases subPieces_cases hx with ⟨rfl, h⟩ | ⟨h1, h2, ⟨rfl, h3⟩ | ⟨rfl, h3⟩⟩
  · exact h
  · exact Or.inr (le_refl bs)
  · exact Or.inl (le_refl be)

theorem ivlAvoid_of_subset {bs be : ℤ} {s x : Ivl} (hsub : s.start ≤ x.start ∧ x.stop ≤ s.stop)
    (h : ivlAvoid s bs be) : ivlAvoid x bs be := by
  unfold ivlAvoid at *
  omega

theorem keep_mem_subPieces {bs be : ℤ} {s : Ivl} (h : be ≤ s.start ∨ s.stop ≤ bs) :
    s ∈ subPieces bs be s := by
  unfold subPieces
  rw [if_pos h]
  exact List.mem_singleton.2 rfl

theorem piece1_mem_subPieces {bs be : ℤ} {s : Ivl} (hov1 : s.start < be) (hov2 : bs < s.stop)
    (h : s.start < bs) : (⟨s.start, bs⟩ : Ivl) ∈ subPieces bs be s := by
  unfold subPieces
  rw [if_neg (by omega), if_pos h]
  simp

theorem piece2_mem_subPieces {bs be : ℤ} {s : Ivl} (hov1 : s.start < be) (hov2 : bs < s.stop)
    (h : be < s.stop) : (⟨be, s.stop⟩ : Ivl) ∈ subPieces bs be s := by
  unfold subPieces
  rw [if_neg (by omega)]
  by_cases h1 : s.start < bs <;> simp [h1, h]

theorem subPieces_pairwise {bs be : ℤ} (hvalid : bs ≤ be) (s : Ivl) :
    (subPieces bs be s).Pairwise ivlSep := by
  unfold subPieces
  split_ifs <;> simp_all [ivlSep]

theorem flatMap_subPieces_pairwise {bs be : ℤ} (hvalid : bs ≤ be) {slots : List Ivl}
    (h : slots.Pairwise ivlSep) :
    (slots.flatMap (subPieces bs be)).Pairwise ivlSep := by
  rw [List.pairwise_flatMap]
  constructor
  · intro s _
    exact subPieces_pairwise hvalid s
  · refine h.imp_of_mem ?_
    intro a b _ _ hab x hx y hy
    have hxa := subPieces_subset hx
    have hyb := subPieces_subset hy
    unfold ivlSep at *
    omega

theorem filtered_sorted {l : List Ivl} (h : l.Pairwise ivlSep) :
    (l.filter bigIvl).Sorted ivlLeStart := by
  have hsep : (l.filter bigIvl).Pairwise ivlSep := h.sublist (List.filter_sublist l)
  have hnn : ∀ x ∈ l.filter bigIvl, x.start ≤ x.stop := by
    intro x hx
    have := (List.mem_filter.1 hx).2
    unfold bigIvl at this
    have := of_decide_eq_true this
    omega
  refine hsep.imp_of_mem ?_
  intro a b ha hb hab
  have h1 := hnn a ha
  unfold ivlSep ivlLeStart at *
  omega

theorem stepSlots_eq_filter {bs be : ℤ} (hvalid : bs ≤ be) {slots : List Ivl}
    (h : slots.Pairwise ivlSep) :
    stepSlots bs be slots = (slots.flatMap (subPieces bs be)).filter bigIvl := by
  unfold stepSlots
  exact List.Sorted.insertionSort_eq (filtered_sorted (flatMap_subPieces_pairwise hvalid h))

theorem mem_stepSlots {bs be : ℤ} {slots : List Ivl} {x : Ivl} :
    x ∈ stepSlots bs be slots ↔ x ∈ (slots.flatMap (subPieces bs be)).filter bigIvl := by
  unfold stepSlots
  exact List.mem_insertionSort ivlLeStart

/-- Per-day decomposition of `buildFreeGrid`: a day's slot list is the fold
of that day's busy blocks, in input order, over the window. -/
theorem buildFreeGrid_day_aux (busy : List BusyBlock) (free : Day → List Ivl) (d : Day) :
    (busy.foldl
      (fun free b => fun d' =>
        if d' = b.day then stepSlots b.startMin b.endMin (free b.day) else free d')
      free) d =
    (busy.filter fun b => decide (b.day = d)).foldl
      (fun slots b => stepSlots b.startMin b.endMin slots) (free d) := by
  induction busy generalizing free with
  | nil => rfl
  | cons b bs ih =>
    simp only [List.foldl_cons, List.filter_cons]
    rw [ih]
    by_cases hbd : b.day = d
    · simp [hbd, List.foldl_cons]
    · have hbd2 : ¬(d = b.day) := fun h => hbd h.symm
      simp [hbd, hbd2]

theorem buildFreeGrid_day (p : Preferences) (busy : List BusyBlock) (d : Day) :
    buildFreeGrid p busy d =
      (busy.filter fun b => decide (b.day = d)).foldl
        (fun slots b => stepSlots b.startMin b.endMin slots)
        [⟨p.startHour * 60, p.endHour * 60⟩] :=
  buildFreeGrid_day_aux busy _ d

/-- All the day-level facts maintained while subtracting busy blocks:
the slots are separated, inside the window, at least 15 minutes long,
avoid every processed block, and cover every at-least-15-minute span of
the window that avoids all processed blocks. -/
def GridInv (winS winE : ℤ) (procd : List BusyBlock) (slots : List Ivl) : Prop :=
  slots.Pairwise ivlSep ∧
  (∀ iv ∈ slots, winS ≤ iv.start ∧ iv.stop ≤ winE) ∧
  (∀ iv ∈ slots, 15 ≤ ivlLen iv) ∧
  (∀ iv ∈ slots, ∀ b ∈ procd, ivlAvoid iv b.startMin b.endMin) ∧
  (∀ u v : ℤ, winS ≤ u → v ≤ winE → 15 ≤ v - u →
    (∀ b ∈ procd, b.endMin ≤ u ∨ v ≤ b.startMin) →
    ∃ iv ∈ slots, iv.start ≤ u ∧ v ≤ iv.stop)

theorem gridInv_step {winS winE : ℤ} {procd : List BusyBlock} {slots : List Ivl}
    {b : BusyBlock} (hb : b.startMin < b.endMin) (h : GridInv winS winE procd slots) :
    GridInv winS winE (procd ++ [b]) (stepSlots b.startMin b.endMin slots) := by
  obtain ⟨h1, h2, h3, h4, h5⟩ := h
  have hstep := stepSlots_eq_filter hb.le h1
  have hmem : ∀ {x : Ivl}, x ∈ stepSlots b.startMin b.endMin slots →
      ∃ s ∈ slots, x ∈ subPieces b.startMin b.endMin s ∧ bigIvl x = true := by
    intro x hx
    rw [mem_stepSlots] at hx
    obtain ⟨hx1, hx2⟩ := List.mem_filter.1 hx
    obtain ⟨s, hs, hxs⟩ := List.mem_flatMap.1 hx1
    exact ⟨s, hs, hxs, hx2⟩
  refine ⟨?_, ?_, ?_, ?_, ?_⟩
  · rw [hstep]
    exact (flatMap_subPieces_pairwise hb.le h1).sublist (List.filter_sublist _)
  · intro iv hiv
    obtain ⟨s, hs, hivs, _⟩ := hmem hiv
    have hsub := subPieces_subset hivs
    have := h2 s hs
    omega
  · intro iv hiv
    obtain ⟨_, _, _, hbig⟩ := hmem hiv
    unfold bigIvl at hbig
    unfold ivlLen
    have := of_decide_eq_true hbig
    omega
  · intro iv hiv b' hb'
    obtain ⟨s, hs, hivs, _⟩ := hmem hiv
    rcases List.mem_append.1 hb' with hb' | hb'
    · exact ivlAvoid_of_subset (subPieces_subset hivs) (h4 s hs b' hb')
    · rw [List.mem_singleton.1 hb']
      exact subPieces_avoid hivs
  · intro u v huS hvE hlen havoid
    obtain ⟨iv, hiv, hivu, hivv⟩ := h5 u v huS hvE hlen (fun b' hb' =>
      havoid b' (List.mem_append.2 (Or.inl hb')))
    have havb : b.endMin ≤ u ∨ v ≤ b.startMin :=
      havoid b (List.mem_append.2 (Or.inr (List.mem_singleton.2 rfl)))
    have hbig15 : 15 ≤ ivlLen iv := h3 iv hiv
    by_cases hov : b.endMin ≤ iv.start ∨ iv.stop ≤ b.startMin
    · refine ⟨iv, ?_, hivu, hivv⟩
      rw [mem_stepSlots, List.mem_filter]
      refine ⟨List.mem_flatMap.2 ⟨iv, hiv, keep_mem_subPieces hov⟩, ?_⟩
      unfold bigIvl
      unfold ivlLen at hbig15
      exact decide_eq_true (by omega)
    · push_neg at hov
      rcases havb with havb | havb
      · refine ⟨⟨b.endMin, iv.stop⟩, ?_, by simp; omega, by simp; omega⟩
        rw [mem_stepSlots, List.mem_filter]
        refine ⟨List.mem_flatMap.2 ⟨iv, hiv,
          piece2_mem_subPieces (by omega) (by omega) (by omega)⟩, ?_⟩
        unfold bigIvl
        exact decide_eq_true (by simp; omega)
      · refine ⟨⟨iv.start, b.startMin⟩, ?_, by simp; omega, by simp; omega⟩
        rw [mem_stepSlots, List.mem_filter]
        refine ⟨List.mem_flatMap.2 ⟨iv, hiv,
          piece1_mem_subPieces (by omega) (by omega) (by omega)⟩, ?_⟩
        unfold bigIvl
        exact decide_eq_true (by simp; omega)

theorem gridInv_fold {winS winE : ℤ} (l : List BusyBlock)
    (hl : ∀ b ∈ l, b.startMin < b.endMin) (procd : List BusyBlock) (slots : List Ivl)
    (h : GridInv winS winE procd slots) :
    GridInv winS winE (procd ++ l)
      (l.foldl (fun slots b => stepSlots b.startMin b.endMin slots) slots) := by
  induction l generalizing procd slots with
  | nil => simpa using h
  | cons b bs ih =>
    have hstep := gridInv_step (hl b (List.mem_cons_self b bs)) h
    have := ih (fun b' hb' => hl b' (List.mem_cons_of_mem b hb')) (procd ++ [b]) _ hstep
    simpa [List.append_assoc] using this

theorem gridInv_init {winS winE : ℤ} (h : 15 ≤ winE - winS) :
    GridInv winS winE [] [⟨winS, winE⟩] := by
  refine ⟨List.pairwise_singleton _ _, ?_, ?_, ?_, ?_⟩
  · intro iv hiv
    rw [List.mem_singleton.1 hiv]
    simp
  · intro iv hiv
    rw [List.mem_singleton.1 hiv]
    unfold ivlLen
    simpa using h
  · intro iv _ b hb
    exact absurd hb (List.not_mem_nil b)
  · intro u v huS hvE hlen _
    exact ⟨⟨winS, winE⟩, List.mem_singleton.2 rfl, huS, hvE⟩

/-- The invariant instantiated for a full `buildFreeGrid` run. -/
theorem freeGrid_inv (p : Preferences) (busy : List BusyBlock)
    (hwin : p.startHour < p.endHour)
    (hvalid : ∀ b ∈ busy, b.startMin < b.endMin) (d : Day) :
    GridInv (p.startHour * 60) (p.endHour * 60)
      (busy.filter fun b => decide (b.day = d)) (buildFreeGrid p busy d) := by
  rw [buildFreeGrid_day]
  have hinit : GridInv (p.startHour * 60) (p.endHour * 60) []
      [⟨p.startHour * 60, p.endHour * 60⟩] := gridInv_init (by omega)
  have := gridInv_fold (busy.filter fun b => decide (b.day = d))
    (fun b hb => hvalid b (List.mem_filter.1 hb).1) [] _ hinit
  simpa using this

/-! ### The free-time computer's guarantees (claim C1) -/

/-- C1 fails as stated: with the 16-hour window 06:00–22:00 and the valid
busy block Mon 370–600, minute 365 lies in the window, in no busy block,
and in no free interval — the 10-minute remainder `[360,370)` was dropped
by the 15-minute filter, so the union of the free intervals is strictly
smaller than window minus busy. -/
theorem buildFreeGrid_union_counterexample :
    ((⟨50, 3, 6, 22⟩ : Preferences).startHour < (⟨50, 3, 6, 22⟩ : Preferences).endHour) ∧
    (∀ b ∈ [(⟨"b1", .mon, 370, 600, "X"⟩ : BusyBlock)], b.startMin < b.endMin) ∧
    ¬ (∃ iv ∈ buildFreeGrid ⟨50, 3, 6, 22⟩ [⟨"b1", .mon, 370, 600, "X"⟩] Day.mon,
        iv.start ≤ (365 : ℤ) ∧ (365 : ℤ) < iv.stop) ∧
    ((⟨50, 3, 6, 22⟩ : Preferences).startHour * 60 ≤ (365 : ℤ) ∧
      (365 : ℤ) < (⟨50, 3, 6, 22⟩ : Preferences).endHour * 60 ∧
      ∀ b ∈ [(⟨"b1", .mon, 370, 600, "X"⟩ : BusyBlock)], b.day = Day.mon →
        ¬(b.startMin ≤ (365 : ℤ) ∧ (365 : ℤ) < b.endMin)) := by decide

/-- C1 amended: for a valid window and valid busy blocks, each day's free
intervals are pairwise separated, sorted ascending by start and at least
15 minutes long, and their union is exactly the set of minutes lying in
some at-least-15-minute sub-span of the window that meets no busy block of
that day (i.e. the window minus the busy blocks minus the maximal
busy-free spans shorter than 15 minutes). -/
theorem buildFreeGrid_characterisation (p : Preferences) (busy : List BusyBlock)
    (hwin : p.startHour < p.endHour)
    (hvalid : ∀ b ∈ busy, b.startMin < b.endMin) (d : Day) :
    (buildFreeGrid p busy d).Pairwise ivlSep ∧
    (buildFreeGrid p busy d).Sorted ivlLeStart ∧
    (∀ iv ∈ buildFreeGrid p busy d, 15 ≤ ivlLen iv) ∧
    (∀ x : ℤ,
      (∃ iv ∈ buildFreeGrid p busy d, iv.start ≤ x ∧ x < iv.stop) ↔
      (∃ u v : ℤ, u ≤ x ∧ x < v ∧ 15 ≤ v - u ∧ p.startHour * 60 ≤ u ∧
        v ≤ p.endHour * 60 ∧
        ∀ b ∈ busy, b.day = d → (b.endMin ≤ u ∨ v ≤ b.startMin))) := by
  obtain ⟨h1, h2, h3, h4, h5⟩ := freeGrid_inv p busy hwin hvalid d
  refine ⟨h1, ?_, h3, ?_⟩
  · refine h1.imp_of_mem ?_
    intro a b ha hb hab
    have := h3 a ha
    unfold ivlSep ivlLeStart ivlLen at *
    omega
  · intro x
    constructor
    · rintro ⟨iv, hiv, hx1, hx2⟩
      refine ⟨iv.start, iv.stop, hx1, hx2, ?_, (h2 iv hiv).1, (h2 iv hiv).2, ?_⟩
      · have := h3 iv hiv
        unfold ivlLen at this
        omega
      · intro b hb hbd
        exact h4 iv hiv b (List.mem_filter.2 ⟨hb, by simp [hbd]⟩)
    · rintro ⟨u, v, hux, hxv, hlen, huS, hvE, havoid⟩
      obtain ⟨iv, hiv, hivu, hivv⟩ := h5 u v huS hvE hlen (fun b hb => by
        have hmem := List.mem_filter.1 hb
        exact havoid b hmem.1 (by simpa using hmem.2))
      exact ⟨iv, hiv, by omega, by omega⟩

/-- Witness for C1 (amended) on a concrete window and busy block. -/
theorem buildFreeGrid_characterisation_witness :
    ((⟨50, 3, 6, 22⟩ : Preferences).startHour < (⟨50, 3, 6, 22⟩ : Preferences).endHour) ∧
    (∀ b ∈ [(⟨"b1", .mon, 370, 600, "X"⟩ : BusyBlock)], b.startMin < b.endMin) ∧
    (∀ iv ∈ buildFreeGrid ⟨50, 3, 6, 22⟩ [⟨"b1", .mon, 370, 600, "X"⟩] Day.mon,
      15 ≤ ivlLen iv) := by
  have h := buildFreeGrid_characterisation ⟨50, 3, 6, 22⟩
    [⟨"b1", .mon, 370, 600, "X"⟩] (by decide) (by decide) Day.mon
  exact ⟨by decide, by decide, h.2.2.1⟩

/-! ### Placement-phase invariants (claims C2, C10) -/

theorem splitFirstFit_none {m : ℤ} {l : List Ivl} (h : splitFirstFit m l = none) :
    ∀ x ∈ l, ¬(m ≤ x.stop - x.start) := by
  induction l with
  | nil => intro x hx; exact absurd hx (List.not_mem_nil x)
  | cons a rest ih =>
    unfold splitFirstFit at h
    by_cases hfit : m ≤ a.stop - a.start
    · rw [if_pos hfit] at h
      exact absurd h (by simp)
    · rw [if_neg hfit] at h
      intro x hx
      rcases List.mem_cons.1 hx with rfl | hx'
      · exact hfit
      · cases hrec : splitFirstFit m rest with
        | none => exact ih hrec x hx'
        | some pr =>
          rw [hrec] at h
          obtain ⟨c, rest'⟩ := pr
          exact absurd h (by simp)

theorem splitFirstFit_some {m : ℤ} {l l' : List Ivl} {s : Ivl}
    (h : splitFirstFit m l = some (s, l')) :
    ∃ pre post, l = pre ++ s :: post ∧
      l' = pre ++ (if s.start + m < s.stop then [⟨s.start + m, s.stop⟩] else []) ++ post ∧
      m ≤ s.stop - s.start ∧ (∀ x ∈ pre, ¬(m ≤ x.stop - x.start)) := by
  induction l generalizing l' with
  | nil => exact absurd h (by simp [splitFirstFit])
  | cons a rest ih =>
    unfold splitFirstFit at h
    by_cases hfit : m ≤ a.stop - a.start
    · rw [if_pos hfit] at h
      obtain ⟨heq1, heq2⟩ := Prod.mk.injEq .. ▸ Option.some.inj h
      subst heq1
      refine ⟨[], rest, rfl, ?_, hfit, by intro x hx; exact absurd hx (List.not_mem_nil x)⟩
      rw [← heq2]
      simp
    · rw [if_neg hfit] at h
      cases hrec : splitFirstFit m rest with
      | none =>
        rw [hrec] at h
        exact absurd h (by simp)
      | some pr =>
        obtain ⟨c, rest'⟩ := pr
        rw [hrec] at h
        obtain ⟨heq1, heq2⟩ := Prod.mk.injEq .. ▸ Option.some.inj h
        subst heq1
        obtain ⟨pre, post, hp1, hp2, hp3, hp4⟩ := ih hrec
        refine ⟨a :: pre, post, by rw [hp1]; rfl, ?_, hp3, ?_⟩
        · rw [← heq2, hp2]
          rfl
        · intro x hx
          rcases List.mem_cons.1 hx with rfl | hx'
          · exact hfit
          · exact hp4 x hx'

/-- The window-containment and unit-length invariant of a scheduling run
(enough for C10; requires no validity of the busy blocks). -/
def Inv10 (winS winE : ℤ) (units : List WorkUnit) (st : SchedState) : Prop :=
  (∀ d, ∀ iv ∈ st.free d, winS ≤ iv.start ∧ iv.stop ≤ winE) ∧
  (∀ blk ∈ st.planned, winS ≤ blk.startMin ∧ blk.endMin ≤ winE ∧
    ∃ u ∈ units, blk.endMin - blk.startMin = u.mins)

theorem tryDay_inv10 {winS winE : ℤ} {units : List WorkUnit} {gen : ℕ → String}
    {u : WorkUnit} {d : Day} {st : SchedState} (hu : u ∈ units) (hm : 15 ≤ u.mins)
    (h : Inv10 winS winE units st) : Inv10 winS winE units (tryDay gen u d st) := by
  obtain ⟨hfree, hplan⟩ := h
  unfold tryDay
  cases hsp : splitFirstFit u.mins (st.free d) with
  | none => exact ⟨hfree, hplan⟩
  | some pr =>
    obtain ⟨s, segs'⟩ := pr
    obtain ⟨pre, post, hp1, hp2, hp3, hp4⟩ := splitFirstFit_some hsp
    have hs : s ∈ st.free d := by
      rw [hp1]
      simp
    have hsw := hfree d s hs
    refine ⟨?_, ?_⟩
    · intro d' iv hiv
      by_cases hd : d' = d
      · rw [hd] at hiv
        simp only [if_pos] at hiv
        have hiv' : iv ∈ segs' := (List.mem_filter.1 hiv).1
        rw [hp2] at hiv'
        rcases List.mem_append.1 hiv' with hiv'' | hiv''
        · rcases List.mem_append.1 hiv'' with hpre | hrem
          · exact hfree d iv (by rw [hp1]; simp [List.mem_append, hpre])
          · by_cases hlt : s.start + u.mins < s.stop
            · rw [if_pos hlt] at hrem
              rw [List.mem_singleton.1 hrem]
              constructor
              · simp
                omega
              · simp
                omega
            · rw [if_neg hlt] at hrem
              exact absurd hrem (List.not_mem_nil iv)
        · exact hfree d iv (by rw [hp1]; simp [List.mem_append, hiv''])
      · simp only [hd, if_neg, not_false_iff] at hiv
        exact hfree d' iv hiv
    · intro blk hblk
      rcases List.mem_append.1 hblk with hold | hnew
      · exact hplan blk hold
      · rw [List.mem_singleton.1 hnew]
        refine ⟨by simp; omega, by simp; omega, u, hu, by simp⟩

theorem placeUnit_inv10 {winS winE : ℤ} {units : List WorkUnit} {gen : ℕ → String}
    {maxB : ℕ} {u : WorkUnit} (hu : u ∈ units) (hm : 15 ≤ u.mins) (days : List Day)
    {st : SchedState} (h : Inv10 winS winE units st) :
    Inv10 winS winE units (placeUnit gen maxB u days st) := by
  induction days generalizing st with
  | nil => exact h
  | cons d ds ih =>
    unfold placeUnit
    by_cases hguard : maxB ≤ st.count d
    · rw [if_pos hguard]
      exact ih h
    · rw [if_neg hguard]
      have h' : Inv10 winS winE units (tryDay gen u d st) := tryDay_inv10 hu hm h
      by_cases hany : (tryDay gen u d st).planned.any (matchesUnit u) = true
      · rw [if_pos hany]
        exact h'
      · rw [if_neg hany]
        exact ih h'

theorem runUnits_inv10 {winS winE : ℤ} {units : List WorkUnit} {gen : ℕ → String}
    {maxB : ℕ} (l : List WorkUnit) (hl : ∀ u ∈ l, u ∈ units)
    (hl15 : ∀ u ∈ l, 15 ≤ u.mins) {st : SchedState}
    (h : Inv10 winS winE units st) :
    Inv10 winS winE units (runUnits gen maxB l st) := by
  induction l generalizing st with
  | nil => exact h
  | cons u us ih =>
    exact ih (fun u' hu' => hl u' (List.mem_cons_of_mem u hu'))
      (fun u' hu' => hl15 u' (List.mem_cons_of_mem u hu'))
      (placeUnit_inv10 (hl u (List.mem_cons_self u us))
        (hl15 u (List.mem_cons_self u us)) DAYS h)

theorem freeGrid_subset_window (p : Preferences) (busy : List BusyBlock) (d : Day) :
    ∀ iv ∈ buildFreeGrid p busy d,
      p.startHour * 60 ≤ iv.start ∧ iv.stop ≤ p.endHour * 60 := by
  rw [buildFreeGrid_day]
  have hgen : ∀ (l : List BusyBlock) (slots : List Ivl),
      (∀ iv ∈ slots, p.startHour * 60 ≤ iv.start ∧ iv.stop ≤ p.endHour * 60) →
      ∀ iv ∈ l.foldl (fun slots b => stepSlots b.startMin b.endMin slots) slots,
        p.startHour * 60 ≤ iv.start ∧ iv.stop ≤ p.endHour * 60 := by
    intro l
    induction l with
    | nil => intro slots h iv hiv; exact h iv hiv
    | cons b bs ih =>
      intro slots h iv hiv
      refine ih _ ?_ iv hiv
      intro x hx
      rw [mem_stepSlots] at hx
      obtain ⟨s, hs, hxs⟩ := List.mem_flatMap.1 (List.mem_filter.1 hx).1
      have hsub := subPieces_subset hxs
      have := h s hs
      omega
  exact hgen _ _ (by intro iv hiv; rw [List.mem_singleton.1 hiv]; exact ⟨le_refl _, le_refl _⟩)

theorem expandUnits_mins_ge (block : ℤ) (score : Task → ℤ) (tasks : List Task) :
    ∀ u ∈ expandUnits block score tasks, 15 ≤ u.mins := by
  intro u hu
  obtain ⟨t, _, hut⟩ := List.mem_flatMap.1 hu
  by_cases h1 : t.done
  · simp [expandTask, h1] at hut
  · by_cases h2 : t.estimateMins ≤ 0
    · have h2' : (0 : ℤ) ⊔ t.estimateMins ≤ 0 := by omega
      simp [expandTask, h1, h2'] at hut
    · have hrem : ¬((0 : ℤ) ⊔ t.estimateMins ≤ 0) := by omega
      simp only [expandTask, h1, Bool.false_eq_true, if_neg, not_false_iff, hrem] at hut
      obtain ⟨i, _, rfl⟩ := List.mem_map.1 hut
      exact le_max_left _ _

/-- C10: every planned block produced by the scheduler lies inside the
configured daily window and its length equals the duration of the work
unit it was created for. -/
theorem autoPlan_blocks_within_window (gen : ℕ → String) (score : Task → ℤ)
    (p : Preferences) (busyBlocks : List BusyBlock) (tasks : List Task)
    (hwin : p.startHour < p.endHour) :
    ∀ blk ∈ autoPlan gen score p busyBlocks tasks,
      p.startHour * 60 ≤ blk.startMin ∧ blk.startMin < blk.endMin ∧
      blk.endMin ≤ p.endHour * 60 ∧
      ∃ u ∈ expandUnits p.workBlockMins score tasks,
        blk.endMin - blk.startMin = u.mins := by
  intro blk hblk
  unfold autoPlan at hblk
  rw [List.mem_insertionSort] at hblk
  have hsub : ∀ u ∈ List.insertionSort unitGe (expandUnits p.workBlockMins score tasks),
      u ∈ expandUnits p.workBlockMins score tasks := by
    intro u hu
    exact (List.perm_insertionSort unitGe _).subset hu
  have hinv := @runUnits_inv10 (p.startHour * 60) (p.endHour * 60)
    (expandUnits p.workBlockMins score tasks) gen p.maxBlocksPerDay _ hsub
    (fun u hu => expandUnits_mins_ge p.workBlockMins score tasks u (hsub u hu))
    ⟨buildFreeGrid p busyBlocks, [], fun _ => 0, 0⟩
    ⟨fun d => freeGrid_subset_window p busyBlocks d, by simp⟩
  obtain ⟨h1, h2, h3⟩ := hinv.2 blk hblk
  obtain ⟨u, hu, hlen⟩ := h3
  have := expandUnits_mins_ge p.workBlockMins score tasks u hu
  exact ⟨h1, by omega, h2, u, hu, hlen⟩

/-- Witness for C10 at a concrete input. -/
theorem autoPlan_blocks_within_window_witness :
    ((⟨50, 3, 6, 22⟩ : Preferences).startHour < (⟨50, 3, 6, 22⟩ : Preferences).endHour) ∧
    ∀ blk ∈ autoPlan (fun _ => "x") (fun _ => 0) ⟨50, 3, 6, 22⟩ []
        [⟨"t1", "Exam", "2026-01-01", .high, 120, false, 0⟩],
      (⟨50, 3, 6, 22⟩ : Preferences).startHour * 60 ≤ blk.startMin ∧
      blk.startMin < blk.endMin ∧
      blk.endMin ≤ (⟨50, 3, 6, 22⟩ : Preferences).endHour * 60 ∧
      ∃ u ∈ expandUnits (⟨50, 3, 6, 22⟩ : Preferences).workBlockMins (fun _ => 0)
          [⟨"t1", "Exam", "2026-01-01", .high, 120, false, 0⟩],
        blk.endMin - blk.startMin = u.mins :=
  ⟨by decide, autoPlan_blocks_within_window (fun _ => "x") (fun _ => 0) ⟨50, 3, 6, 22⟩ []
      [⟨"t1", "Exam", "2026-01-01", .high, 120, false, 0⟩] (by decide)⟩

/-! ### Scheduler safety invariants (claim C2) -/

/-- Two planned blocks do not overlap when they share a day. -/
def sameDayDisjoint (a b : PlannedBlock) : Prop :=
  a.day = b.day → a.endMin ≤ b.startMin ∨ b.endMin ≤ a.startMin

theorem sameDayDisjoint_symm : Symmetric sameDayDisjoint := by
  intro a b h hd
  rcases h hd.symm with h' | h'
  · exact Or.inr h'
  · exact Or.inl h'

/-- Separation and busy-avoidance of the free grid, without any window
hypothesis. -/
theorem freeGrid_sep_avoid (p : Preferences) (busy : List BusyBlock)
    (hvalid : ∀ b ∈ busy, b.startMin < b.endMin) (d : Day) :
    (buildFreeGrid p busy d).Pairwise ivlSep ∧
    ∀ iv ∈ buildFreeGrid p busy d, ∀ b ∈ busy, b.day = d →
      ivlAvoid iv b.startMin b.endMin := by
  rw [buildFreeGrid_day]
  have main : ∀ (l procd : List BusyBlock) (slots : List Ivl),
      (∀ b ∈ l, b.startMin < b.endMin) →
      slots.Pairwise ivlSep →
      (∀ iv ∈ slots, ∀ b ∈ procd, ivlAvoid iv b.startMin b.endMin) →
      (l.foldl (fun slots b => stepSlots b.startMin b.endMin slots) slots).Pairwise ivlSep ∧
      (∀ iv ∈ l.foldl (fun slots b => stepSlots b.startMin b.endMin slots) slots,
        ∀ b ∈ procd ++ l, ivlAvoid iv b.startMin b.endMin) := by
    intro l
    induction l with
    | nil =>
      intro procd slots _ hsep havoid
      exact ⟨hsep, fun iv hiv b hb => havoid iv hiv b (by simpa using hb)⟩
    | cons b bs ih =>
      intro procd slots hl hsep havoid
      have hb := hl b (List.mem_cons_self b bs)
      have hsep' : (stepSlots b.startMin b.endMin slots).Pairwise ivlSep := by
        rw [stepSlots_eq_filter hb.le hsep]
        exact (flatMap_subPieces_pairwise hb.le hsep).sublist (List.filter_sublist _)
      have havoid' : ∀ iv ∈ stepSlots b.startMin b.endMin slots,
          ∀ b' ∈ procd ++ [b], ivlAvoid iv b'.startMin b'.endMin := by
        intro iv hiv b' hb'
        rw [mem_stepSlots] at hiv
        obtain ⟨s, hs, hivs⟩ := List.mem_flatMap.1 (List.mem_filter.1 hiv).1
        rcases List.mem_append.1 hb' with hb' | hb'
        · exact ivlAvoid_of_subset (subPieces_subset hivs) (havoid s hs b' hb')
        · rw [List.mem_singleton.1 hb']
          exact subPieces_avoid hivs
      have := ih (procd ++ [b]) (stepSlots b.startMin b.endMin slots)
        (fun b' hb' => hl b' (List.mem_cons_of_mem b hb')) hsep' havoid'
      refine ⟨this.1, fun iv hiv b' hb' => this.2 iv hiv b' ?_⟩
      rcases List.mem_append.1 hb' with hb' | hb'
      · exact List.mem_append.2 (Or.inl (List.mem_append.2 (Or.inl hb')))
      · rcases List.mem_cons.1 hb' with rfl | hb''
        · exact List.mem_append.2 (Or.inl (List.mem_append.2 (Or.inr (by simp))))
        · exact List.mem_append.2 (Or.inr hb'')
  have h := main (busy.filter fun b => decide (b.day = d)) []
    [⟨p.startHour * 60, p.endHour * 60⟩]
    (fun b hb => hvalid b (List.mem_filter.1 hb).1)
    (List.pairwise_singleton _ _)
    (fun iv _ b hb => absurd hb (List.not_mem_nil b))
  refine ⟨h.1, fun iv hiv b hb hbd => h.2 iv hiv b ?_⟩
  simp only [List.nil_append]
  exact List.mem_filter.2 ⟨hb, by simp [hbd]⟩

/-- The safety invariant of a scheduling run: free intervals stay
separated, inside the original grid and busy-avoiding; planned blocks are
pairwise disjoint per day, disjoint from the remaining free intervals, and
each block records a unit placed into a sufficiently long grid interval;
the daily counter counts that day's blocks. -/
def Inv2 (p : Preferences) (busy : List BusyBlock) (units : List WorkUnit)
    (st : SchedState) : Prop :=
  (∀ d, (st.free d).Pairwise ivlSep) ∧
  (∀ d, ∀ iv ∈ st.free d, ∃ iv0 ∈ buildFreeGrid p busy d,
    iv0.start ≤ iv.start ∧ iv.stop ≤ iv0.stop) ∧
  (∀ d, ∀ iv ∈ st.free d, ∀ b ∈ busy, b.day = d → ivlAvoid iv b.startMin b.endMin) ∧
  (∀ blk ∈ st.planned, ∀ iv ∈ st.free blk.day,
    blk.endMin ≤ iv.start ∨ iv.stop ≤ blk.startMin) ∧
  st.planned.Pairwise sameDayDisjoint ∧
  (∀ d, st.count d = st.planned.countP (fun blk => decide (blk.day = d))) ∧
  (∀ blk ∈ st.planned, 15 ≤ blk.endMin - blk.startMin ∧
    ∃ u ∈ units, blk.endMin - blk.startMin = u.mins ∧
      ∃ iv0 ∈ buildFreeGrid p busy blk.day,
        iv0.start ≤ blk.startMin ∧ blk.endMin ≤ iv0.stop ∧ u.mins ≤ ivlLen iv0)

theorem tryDay_inv2 {p : Preferences} {busy : List BusyBlock} {units : List WorkUnit}
    {gen : ℕ → String} {u : WorkUnit} {d : Day} {st : SchedState}
    (hu : u ∈ units) (hm : 15 ≤ u.mins)
    (h : Inv2 p busy units st) : Inv2 p busy units (tryDay gen u d st) := by
  obtain ⟨h1, h2, h3, h4, h5, h6, h7⟩ := h
  unfold tryDay
  cases hsp : splitFirstFit u.mins (st.free d) with
  | none => exact ⟨h1, h2, h3, h4, h5, h6, h7⟩
  | some pr =>
    obtain ⟨s, segs'⟩ := pr
    dsimp only
    obtain ⟨pre, post, hp1, hp2, hp3, hp4⟩ := splitFirstFit_some hsp
    have hs : s ∈ st.free d := by rw [hp1]; simp
    have hmem' : ∀ {iv : Ivl}, iv ∈ segs'.filter bigIvl →
        iv ∈ st.free d ∨ (iv = ⟨s.start + u.mins, s.stop⟩ ∧ s.start + u.mins < s.stop) := by
      intro iv hiv
      have hiv' : iv ∈ segs' := (List.mem_filter.1 hiv).1
      rw [hp2] at hiv'
      rcases List.mem_append.1 hiv' with hiv'' | hiv''
      · rcases List.mem_append.1 hiv'' with hpre | hrem
        · exact Or.inl (by rw [hp1]; simp [List.mem_append, hpre])
        · by_cases hlt : s.start + u.mins < s.stop
          · rw [if_pos hlt] at hrem
            exact Or.inr ⟨List.mem_singleton.1 hrem, hlt⟩
          · rw [if_neg hlt] at hrem
            exact absurd hrem (List.not_mem_nil iv)
      · exact Or.inl (by rw [hp1]; simp [List.mem_append, hiv''])
    have hsub' : ∀ {iv : Ivl}, iv ∈ segs'.filter bigIvl →
        ∃ s0 ∈ st.free d, s0.start ≤ iv.start ∧ iv.stop ≤ s0.stop := by
      intro iv hiv
      rcases hmem' hiv with hiv' | ⟨rfl, hlt⟩
      · exact ⟨iv, hiv', le_refl _, le_refl _⟩
      · exact ⟨s, hs, by simp; omega, by simp⟩
    have hsepPre : ∀ x ∈ pre, ivlSep x s := by
      have := h1 d
      rw [hp1] at this
      intro x hx
      have := (List.pairwise_append.1 this).2.2 x hx s (by simp)
      exact this
    have hsepPost : ∀ x ∈ post, ivlSep s x := by
      have := h1 d
      rw [hp1] at this
      have hsx := (List.pairwise_append.1 this).2.1
      intro x hx
      exact (List.pairwise_cons.1 hsx).1 x hx
    refine ⟨?_, ?_, ?_, ?_, ?_, ?_, ?_⟩
    · intro d'
      by_cases hd : d' = d
      · subst hd
        simp only [if_pos]
        refine List.Pairwise.sublist (List.filter_sublist _) ?_
        rw [hp2, List.append_assoc]
        have hall := h1 d'
        rw [hp1] at hall
        rw [List.pairwise_append] at hall ⊢
        obtain ⟨hpre, hcons, hcross⟩ := hall
        rw [List.pairwise_cons] at hcons
        refine ⟨hpre, ?_, ?_⟩
        · rw [List.pairwise_append]
          refine ⟨?_, hcons.2, ?_⟩
          · by_cases hlt : s.start + u.mins < s.stop <;>
              simp [hlt, List.pairwise_singleton]
          · intro x hx y hy
            by_cases hlt : s.start + u.mins < s.stop
            · rw [if_pos hlt] at hx
              rw [List.mem_singleton.1 hx]
              have := hcons.1 y hy
              unfold ivlSep at *
              simp at *
              omega
            · rw [if_neg hlt] at hx
              exact absurd hx (List.not_mem_nil x)
        · intro x hx y hy
          rcases List.mem_append.1 hy with hy' | hy'
          · by_cases hlt : s.start + u.mins < s.stop
            · rw [if_pos hlt] at hy'
              rw [List.mem_singleton.1 hy']
              have := hcross x hx s (by simp)
              unfold ivlSep at *
              simp at *
              omega
            · rw [if_neg hlt] at hy'
              exact absurd hy' (List.not_mem_nil y)
          · exact hcross x hx y (List.mem_cons_of_mem s hy')
      · simp only [hd, if_neg, not_false_iff]
        exact h1 d'
    · intro d' iv hiv
      by_cases hd : d' = d
      · subst hd
        simp only [if_pos] at hiv
        obtain ⟨s0, hs0, hss⟩ := hsub' hiv
        obtain ⟨iv0, hiv0, hi⟩ := h2 d' s0 hs0
        exact ⟨iv0, hiv0, by omega, by omega⟩
      · simp only [hd, if_neg, not_false_iff] at hiv
        exact h2 d' iv hiv
    · intro d' iv hiv b hb hbd
      by_cases hd : d' = d
      · rw [hd] at hiv hbd
        simp only [if_pos] at hiv
        obtain ⟨s0, hs0, hss⟩ := hsub' hiv
        exact ivlAvoid_of_subset hss (h3 d s0 hs0 b hb hbd)
      · simp only [hd, if_neg, not_false_iff] at hiv
        exact h3 d' iv hiv b hb hbd
    · intro blk hblk iv hiv
      rcases List.mem_append.1 hblk with hold | hnew
      · by_cases hd : blk.day = d
        · rw [hd] at hiv
          simp only [if_pos] at hiv
          obtain ⟨s0, hs0, hss⟩ := hsub' hiv
          have := h4 blk hold s0 (by rw [hd]; exact hs0)
          omega
        · simp only [hd, if_neg, not_false_iff] at hiv
          exact h4 blk hold iv hiv
      · rw [List.mem_singleton.1 hnew] at hiv ⊢
        simp only [if_pos] at hiv
        have hiv' : iv ∈ segs' := (List.mem_filter.1 hiv).1
        rw [hp2] at hiv'
        rcases List.mem_append.1 hiv' with hiv'' | hpost
        · rcases List.mem_append.1 hiv'' with hpre | hrem
          · have := hsepPre iv hpre
            unfold ivlSep at this
            right
            simp
            omega
          · by_cases hlt : s.start + u.mins < s.stop
            · rw [if_pos hlt] at hrem
              rw [List.mem_singleton.1 hrem]
              left
              simp
            · rw [if_neg hlt] at hrem
              exact absurd hrem (List.not_mem_nil iv)
        · have := hsepPost iv hpost
          unfold ivlSep at this
          left
          simp
          omega
    · rw [List.pairwise_append]
      refine ⟨h5, List.pairwise_singleton _ _, ?_⟩
      intro blk hblk nb hnb
      rw [List.mem_singleton.1 hnb]
      intro hday
      have := h4 blk hblk s (by rw [hday]; simpa using hs)
      simp at *
      omega
    · intro d'
      rw [List.countP_append]
      by_cases hd : d' = d
      · rw [hd]
        dsimp only
        rw [if_pos rfl, h6 d]
        simp [List.countP_cons]
      · dsimp only
        rw [if_neg hd, h6 d']
        have : ¬(d = d') := fun h => hd h.symm
        simp [List.countP_cons, this]
    · intro blk hblk
      rcases List.mem_append.1 hblk with hold | hnew
      · exact h7 blk hold
      · rw [List.mem_singleton.1 hnew]
        obtain ⟨iv0, hiv0, hi1, hi2⟩ := h2 d s hs
        refine ⟨by simp; omega, u, hu, by simp, iv0, by simpa using hiv0, by simp; omega,
          by simp; omega, ?_⟩
        unfold ivlLen
        omega

theorem placeUnit_inv2 {p : Preferences} {busy : List BusyBlock} {units : List WorkUnit}
    {gen : ℕ → String} {maxB : ℕ} {u : WorkUnit} (hu : u ∈ units) (hm : 15 ≤ u.mins)
    (days : List Day) {st : SchedState} (h : Inv2 p busy units st) :
    Inv2 p busy units (placeUnit gen maxB u days st) := by
  induction days generalizing st with
  | nil => exact h
  | cons d ds ih =>
    unfold placeUnit
    by_cases hguard : maxB ≤ st.count d
    · rw [if_pos hguard]
      exact ih h
    · rw [if_neg hguard]
      have h' : Inv2 p busy units (tryDay gen u d st) := tryDay_inv2 hu hm h
      by_cases hany : (tryDay gen u d st).planned.any (matchesUnit u) = true
      · rw [if_pos hany]
        exact h'
      · rw [if_neg hany]
        exact ih h'

theorem runUnits_inv2 {p : Preferences} {busy : List BusyBlock} {units : List WorkUnit}
    {gen : ℕ → String} {maxB : ℕ} (l : List WorkUnit) (hl : ∀ u ∈ l, u ∈ units)
    (hl15 : ∀ u ∈ l, 15 ≤ u.mins) {st : SchedState} (h : Inv2 p busy units st) :
    Inv2 p busy units (runUnits gen maxB l st) := by
  induction l generalizing st with
  | nil => exact h
  | cons u us ih =>
    exact ih (fun u' hu' => hl u' (List.mem_cons_of_mem u hu'))
      (fun u' hu' => hl15 u' (List.mem_cons_of_mem u hu'))
      (placeUnit_inv2 (hl u (List.mem_cons_self u us))
        (hl15 u (List.mem_cons_self u us)) DAYS h)

theorem placeUnit_countLe {gen : ℕ → String} {maxB : ℕ} {u : WorkUnit}
    (days : List Day) {st : SchedState} (h : ∀ d, st.count d ≤ maxB) :
    ∀ d, (placeUnit gen maxB u days st).count d ≤ maxB := by
  induction days generalizing st with
  | nil => exact h
  | cons d ds ih =>
    unfold placeUnit
    by_cases hguard : maxB ≤ st.count d
    · rw [if_pos hguard]
      exact ih h
    · rw [if_neg hguard]
      have h' : ∀ d0, (tryDay gen u d st).count d0 ≤ maxB := by
        intro d0
        unfold tryDay
        cases hsp : splitFirstFit u.mins (st.free d) with
        | none => exact h d0
        | some pr =>
          obtain ⟨s, segs'⟩ := pr
          dsimp only
          by_cases hd : d0 = d
          · rw [hd, if_pos rfl]
            omega
          · rw [if_neg hd]
            exact h d0
      by_cases hany : (tryDay gen u d st).planned.any (matchesUnit u) = true
      · rw [if_pos hany]
        exact h'
      · rw [if_neg hany]
        exact ih h'

theorem runUnits_countLe {gen : ℕ → String} {maxB : ℕ} (l : List WorkUnit)
    {st : SchedState} (h : ∀ d, st.count d ≤ maxB) :
    ∀ d, (runUnits gen maxB l st).count d ≤ maxB := by
  induction l generalizing st with
  | nil => exact h
  | cons u us ih => exact ih (placeUnit_countLe DAYS h)

/-- C2: on any input with well-formed busy blocks, the scheduler's output
has no two same-day overlapping planned blocks, no planned block meeting a
busy block of its day, at most `maxBlocksPerDay` blocks per day, and every
block records a unit placed into a free-grid interval at least as long as
the unit's duration. -/
theorem autoPlan_safety (gen : ℕ → String) (score : Task → ℤ) (p : Preferences)
    (busyBlocks : List BusyBlock) (tasks : List Task)
    (hvalid : ∀ b ∈ busyBlocks, b.startMin < b.endMin) :
    (autoPlan gen score p busyBlocks tasks).Pairwise sameDayDisjoint ∧
    (∀ blk ∈ autoPlan gen score p busyBlocks tasks, ∀ b ∈ busyBlocks, b.day = blk.day →
      (b.endMin ≤ blk.startMin ∨ blk.endMin ≤ b.startMin)) ∧
    (∀ d, (autoPlan gen score p busyBlocks tasks).countP
        (fun blk => decide (blk.day = d)) ≤ p.maxBlocksPerDay) ∧
    (∀ blk ∈ autoPlan gen score p busyBlocks tasks,
      ∃ u ∈ expandUnits p.workBlockMins score tasks,
        blk.endMin - blk.startMin = u.mins ∧
        ∃ iv0 ∈ buildFreeGrid p busyBlocks blk.day,
          iv0.start ≤ blk.startMin ∧ blk.endMin ≤ iv0.stop ∧ u.mins ≤ ivlLen iv0) := by
  have hsub : ∀ u' ∈ List.insertionSort unitGe (expandUnits p.workBlockMins score tasks),
      u' ∈ expandUnits p.workBlockMins score tasks :=
    fun u' h => (List.perm_insertionSort unitGe _).subset h
  have hmins : ∀ u' ∈ List.insertionSort unitGe (expandUnits p.workBlockMins score tasks),
      15 ≤ u'.mins :=
    fun u' h => expandUnits_mins_ge p.workBlockMins score tasks u' (hsub u' h)
  have hinit : Inv2 p busyBlocks (expandUnits p.workBlockMins score tasks)
      ⟨buildFreeGrid p busyBlocks, [], fun _ => 0, 0⟩ := by
    refine ⟨fun d => (freeGrid_sep_avoid p busyBlocks hvalid d).1,
      fun d iv hiv => ⟨iv, hiv, le_refl _, le_refl _⟩,
      fun d => (freeGrid_sep_avoid p busyBlocks hvalid d).2,
      ?_, List.Pairwise.nil, fun d => rfl, ?_⟩
    · intro blk hblk
      exact absurd hblk (List.not_mem_nil blk)
    · intro blk hblk
      exact absurd hblk (List.not_mem_nil blk)
  have hinv := @runUnits_inv2 p busyBlocks (expandUnits p.workBlockMins score tasks)
    gen p.maxBlocksPerDay _ hsub hmins
    ⟨buildFreeGrid p busyBlocks, [], fun _ => 0, 0⟩ hinit
  obtain ⟨i1, i2, i3, i4, i5, i6, i7⟩ := hinv
  have hcle := @runUnits_countLe gen p.maxBlocksPerDay
    (List.insertionSort unitGe (expandUnits p.workBlockMins score tasks))
    ⟨buildFreeGrid p busyBlocks, [], fun _ => 0, 0⟩ (fun d => Nat.zero_le _)
  have hperm : List.Perm (autoPlan gen score p busyBlocks tasks)
      ((runUnits gen p.maxBlocksPerDay
        (List.insertionSort unitGe (expandUnits p.workBlockMins score tasks))
        ⟨buildFreeGrid p busyBlocks, [], fun _ => 0, 0⟩).planned) :=
    List.perm_insertionSort plannedLe _
  refine ⟨?_, ?_, ?_, ?_⟩
  · exact (hperm.pairwise_iff (fun h => sameDayDisjoint_symm h)).2 i5
  · intro blk hblk b hb hbd
    have hblk' := hperm.subset hblk
    obtain ⟨_, u', _, _, iv0, hiv0, hb1, hb2, _⟩ := i7 blk hblk'
    have havoid := (freeGrid_sep_avoid p busyBlocks hvalid blk.day).2 iv0 hiv0 b hb hbd
    unfold ivlAvoid at havoid
    omega
  · intro d
    rw [hperm.countP_eq, ← i6 d]
    exact hcle d
  · intro blk hblk
    obtain ⟨_, u', hu', hlen, hrest⟩ := i7 blk (hperm.subset hblk)
    exact ⟨u', hu', hlen, hrest⟩

/-- Witness for C2 on a concrete schedule. -/
theorem autoPlan_safety_witness :
    (∀ b ∈ [(⟨"b1", Day.mon, 540, 600, "X"⟩ : BusyBlock)], b.startMin < b.endMin) ∧
    (autoPlan (fun _ => "x") (fun _ => 0) ⟨50, 3, 6, 22⟩ [⟨"b1", Day.mon, 540, 600, "X"⟩]
        [⟨"t1", "Exam", "2026-01-01", .high, 120, false, 0⟩]).Pairwise sameDayDisjoint ∧
    (∀ d, (autoPlan (fun _ => "x") (fun _ => 0) ⟨50, 3, 6, 22⟩
        [⟨"b1", Day.mon, 540, 600, "X"⟩]
        [⟨"t1", "Exam", "2026-01-01", .high, 120, false, 0⟩]).countP
          (fun blk => decide (blk.day = d)) ≤ (3 : ℕ)) := by
  have h := autoPlan_safety (fun _ => "x") (fun _ => 0) ⟨50, 3, 6, 22⟩
    [⟨"b1", Day.mon, 540, 600, "X"⟩]
    [⟨"t1", "Exam", "2026-01-01", .high, 120, false, 0⟩] (by decide)
  exact ⟨by decide, h.1, h.2.2.1⟩

/-! ### Decimal rendering is injective (needed for claim C3) -/

/-- Decimal digits of a natural number, most significant first. -/
def decDigits (n : ℕ) : List Char :=
  if h : n < 10 then [Nat.digitChar n]
  else decDigits (n / 10) ++ [Nat.digitChar (n % 10)]
termination_by n
decreasing_by exact Nat.div_lt_self (by omega) (by omega)

theorem decDigits_lt {n : ℕ} (h : n < 10) : decDigits n = [Nat.digitChar n] := by
  unfold decDigits
  rw [dif_pos h]

theorem decDigits_ge {n : ℕ} (h : ¬n < 10) :
    decDigits n = decDigits (n / 10) ++ [Nat.digitChar (n % 10)] := by
  conv_lhs => rw [decDigits]
  rw [dif_neg h]

theorem decDigits_ne_nil (n : ℕ) : decDigits n ≠ [] := by
  by_cases h : n < 10
  · rw [decDigits_lt h]
    simp
  · rw [decDigits_ge h]
    simp

theorem toDigitsCore_eq_decDigits (fuel : ℕ) :
    ∀ (n : ℕ) (ds : List Char), n < fuel →
      Nat.toDigitsCore 10 fuel n ds = decDigits n ++ ds := by
  induction fuel with
  | zero => intro n ds h; omega
  | succ f ih =>
    intro n ds h
    rw [Nat.toDigitsCore]
    by_cases h0 : n / 10 = 0
    · have hn : n < 10 := by omega
      rw [if_pos h0, decDigits_lt hn, Nat.mod_eq_of_lt hn]
      rfl
    · have hn : ¬n < 10 := by omega
      rw [if_neg h0, ih (n / 10) _ (by omega), decDigits_ge hn, List.append_assoc]
      rfl

theorem toDigits_eq_decDigits (n : ℕ) : Nat.toDigits 10 n = decDigits n := by
  rw [Nat.toDigits, toDigitsCore_eq_decDigits (n + 1) n [] (by omega), List.append_nil]

theorem digitChar_inj_lt : ∀ a < 10, ∀ b < 10, Nat.digitChar a = Nat.digitChar b → a = b := by
  decide

theorem decDigits_inj (m : ℕ) : ∀ n, decDigits m = decDigits n → m = n := by
  induction m using Nat.strong_induction_on with
  | _ m ih =>
    intro n heq
    by_cases hm : m < 10 <;> by_cases hn : n < 10
    · rw [decDigits_lt hm, decDigits_lt hn] at heq
      exact digitChar_inj_lt m hm n hn (by simpa using heq)
    · rw [decDigits_lt hm, decDigits_ge hn] at heq
      have hlen := congrArg List.length heq
      rw [List.length_append] at hlen
      simp only [List.length_singleton] at hlen
      exact absurd (List.length_eq_zero.1 (by omega)) (decDigits_ne_nil (n / 10))
    · rw [decDigits_ge hm, decDigits_lt hn] at heq
      have hlen := congrArg List.length heq
      rw [List.length_append] at hlen
      simp only [List.length_singleton] at hlen
      exact absurd (List.length_eq_zero.1 (by omega)) (decDigits_ne_nil (m / 10))
    · rw [decDigits_ge hm, decDigits_ge hn] at heq
      obtain ⟨hpre, hlast⟩ := List.append_inj' heq rfl
      have hd : m % 10 = n % 10 :=
        digitChar_inj_lt _ (Nat.mod_lt _ (by omega)) _ (Nat.mod_lt _ (by omega))
          (by simpa using hlast)
      have hq : m / 10 = n / 10 :=
        ih (m / 10) (Nat.div_lt_self (by omega) (by omega)) (n / 10) hpre
      omega

theorem natRepr_inj {m n : ℕ} (h : Nat.repr m = Nat.repr n) : m = n := by
  unfold Nat.repr at h
  have hdata := congrArg String.data h
  simp only [List.asString] at hdata
  rw [toDigits_eq_decDigits, toDigits_eq_decDigits] at hdata
  exact decDigits_inj m n hdata

theorem partLabel_inj {title : String} {parts i j : ℕ}
    (h : partLabel title i parts = partLabel title j parts) : i = j := by
  unfold partLabel at h
  have hd := congrArg String.data h
  simp only [String.data_append, List.append_assoc] at hd
  have h1 := List.append_cancel_left hd
  have h2 := List.append_cancel_left h1
  obtain ⟨h3, _⟩ := List.append_inj' h2 rfl
  have h4 : i + 1 = j + 1 := natRepr_inj (String.ext h3)
  omega

/-! ### The placement loop is first-fit with early return (claim C3) -/

/-- Units originating from different work items: distinct `(taskId, label)`. -/
def keyU (a b : WorkUnit) : Prop := ¬(a.taskId = b.taskId ∧ a.label = b.label)

/-- Planned blocks originating from different work units. -/
def keyP (a b : PlannedBlock) : Prop := ¬(a.taskId = b.taskId ∧ a.label = b.label)

theorem keyP_symm : Symmetric keyP := by
  intro a b h ⟨h1, h2⟩
  exact h ⟨h1.symm, h2.symm⟩

theorem keyU_symm : Symmetric keyU := by
  intro a b h ⟨h1, h2⟩
  exact h ⟨h1.symm, h2.symm⟩

theorem expandTask_mem_taskId {block : ℤ} {score : Task → ℤ} {t : Task} {u : WorkUnit}
    (hu : u ∈ expandTask block score t) : u.taskId = t.id := by
  by_cases h1 : t.done
  · simp [expandTask, h1] at hu
  · by_cases h2 : (0 : ℤ) ⊔ t.estimateMins ≤ 0
    · simp [expandTask, h1, h2] at hu
    · simp only [expandTask, h1, Bool.false_eq_true, if_neg, not_false_iff, h2] at hu
      obtain ⟨i, _, rfl⟩ := List.mem_map.1 hu
      rfl

theorem expandTask_key_pairwise (block : ℤ) (score : Task → ℤ) (t : Task) :
    (expandTask block score t).Pairwise keyU := by
  by_cases h1 : t.done
  · simp [expandTask, h1]
  · by_cases h2 : (0 : ℤ) ⊔ t.estimateMins ≤ 0
    · simp [expandTask, h1, h2]
    · simp only [expandTask, h1, Bool.false_eq_true, if_neg, not_false_iff, h2]
      rw [List.pairwise_map]
      have hbase : (List.range ((1 ⊔ jsCeilDiv (0 ⊔ t.estimateMins) block).toNat)).Pairwise
          (· < ·) := List.pairwise_lt_range _
      refine hbase.imp_of_mem ?_
      intro i j hi hj hij ⟨_, hlab⟩
      have hjlt := List.mem_range.1 hj
      by_cases hp1 : (1 ⊔ jsCeilDiv (0 ⊔ t.estimateMins) block).toNat = 1
      · omega
      · rw [if_neg hp1, if_neg hp1] at hlab
        exact absurd (partLabel_inj hlab) (by omega)

theorem expandUnits_key_pairwise (block : ℤ) (score : Task → ℤ) (tasks : List Task)
    (hids : tasks.Pairwise fun a b => a.id ≠ b.id) :
    (expandUnits block score tasks).Pairwise keyU := by
  unfold expandUnits
  rw [List.pairwise_flatMap]
  refine ⟨fun t _ => expandTask_key_pairwise block score t, ?_⟩
  refine hids.imp_of_mem ?_
  intro t1 t2 _ _ hne u hu u' hu' ⟨hid, _⟩
  rw [expandTask_mem_taskId hu, expandTask_mem_taskId hu'] at hid
  exact hne hid

theorem matchesUnit_eq_true_iff (u : WorkUnit) (p : PlannedBlock) :
    matchesUnit u p = true ↔ p.taskId = some u.taskId ∧ p.label = some u.label := by
  unfold matchesUnit
  rw [Bool.and_eq_true, beq_iff_eq, beq_iff_eq]

/-- The placement step as §4.3 of the specification words it: iterate the
days Mon..Sun, skip a saturated day, and place the unit at the start of
the first sufficiently long free interval of the first eligible day,
returning immediately; a unit that fits nowhere is dropped silently. -/
def placeUnitFF (gen : ℕ → String) (maxB : ℕ) (u : WorkUnit) :
    List Day → SchedState → SchedState
  | [], st => st
  | d :: ds, st =>
    if maxB ≤ st.count d then placeUnitFF gen maxB u ds st
    else
      match splitFirstFit u.mins (st.free d) with
      | none => placeUnitFF gen maxB u ds st
      | some _ => tryDay gen u d st

/-- `autoPlan` with the spec's early-return placement step. -/
def runUnitsFF (gen : ℕ → String) (maxB : ℕ) (units : List WorkUnit) (st : SchedState) :
    SchedState :=
  units.foldl (fun st u => placeUnitFF gen maxB u DAYS st) st

/-- The scheduler as §4.3 of the specification describes it. -/
def autoPlanFirstFit (gen : ℕ → String) (score : Task → ℤ) (p : Preferences)
    (busyBlocks : List BusyBlock) (tasks : List Task) : List PlannedBlock :=
  let free := buildFreeGrid p busyBlocks
  let units := expandUnits p.workBlockMins score tasks
  let sorted := List.insertionSort unitGe units
  let st := runUnitsFF gen p.maxBlocksPerDay sorted ⟨free, [], fun _ => 0, 0⟩
  List.insertionSort plannedLe st.planned

theorem placeUnit_eq_FF (gen : ℕ → String) (maxB : ℕ) (u : WorkUnit) (days : List Day)
    (st : SchedState) (hno : st.planned.any (matchesUnit u) = false) :
    placeUnit gen maxB u days st = placeUnitFF gen maxB u days st := by
  induction days generalizing st with
  | nil => rfl
  | cons d ds ih =>
    unfold placeUnit placeUnitFF
    by_cases hguard : maxB ≤ st.count d
    · simp only [if_pos hguard]
      exact ih st hno
    · simp only [if_neg hguard]
      cases hsp : splitFirstFit u.mins (st.free d) with
      | none =>
        have hst : tryDay gen u d st = st := by
          unfold tryDay
          rw [hsp]
        rw [hst, hno]
        simp only [Bool.false_eq_true, if_neg, not_false_iff]
        exact ih st hno
      | some pr =>
        obtain ⟨s, segs'⟩ := pr
        have hany : (tryDay gen u d st).planned.any (matchesUnit u) = true := by
          unfold tryDay
          rw [hsp]
          dsimp only
          rw [List.any_append]
          have : matchesUnit u
              { id := gen st.ctr, day := d, startMin := s.start, endMin := s.start + u.mins,
                type := "plan", taskId := some u.taskId, label := some u.label } = true :=
            (matchesUnit_eq_true_iff u _).2 ⟨rfl, rfl⟩
          simp [this]
        rw [hany]
        simp only [if_pos]

theorem placeUnitFF_planned (gen : ℕ → String) (maxB : ℕ) (u : WorkUnit) (days : List Day)
    (st : SchedState) :
    (placeUnitFF gen maxB u days st).planned = st.planned ∨
    ∃ blk, (placeUnitFF gen maxB u days st).planned = st.planned ++ [blk] ∧
      blk.taskId = some u.taskId ∧ blk.label = some u.label := by
  induction days generalizing st with
  | nil => exact Or.inl rfl
  | cons d ds ih =>
    unfold placeUnitFF
    by_cases hguard : maxB ≤ st.count d
    · rw [if_pos hguard]
      exact ih st
    · rw [if_neg hguard]
      cases hsp : splitFirstFit u.mins (st.free d) with
      | none => exact ih st
      | some pr =>
        obtain ⟨s, segs'⟩ := pr
        unfold tryDay
        rw [hsp]
        exact Or.inr ⟨_, rfl, rfl, rfl⟩

theorem runUnits_eq_FF (gen : ℕ → String) (maxB : ℕ) (units : List WorkUnit) :
    ∀ st : SchedState, units.Pairwise keyU →
      (∀ u ∈ units, st.planned.any (matchesUnit u) = false) →
      st.planned.Pairwise keyP →
      runUnits gen maxB units st = runUnitsFF gen maxB units st ∧
      (runUnitsFF gen maxB units st).planned.Pairwise keyP := by
  induction units with
  | nil => exact fun st _ _ hp => ⟨rfl, hp⟩
  | cons u us ih =>
    intro st hpw hclean hp
    have hponeq : placeUnit gen maxB u DAYS st = placeUnitFF gen maxB u DAYS st :=
      placeUnit_eq_FF gen maxB u DAYS st (hclean u (List.mem_cons_self u us))
    have hcases := placeUnitFF_planned gen maxB u DAYS st
    have hkey : ∀ u' ∈ us, keyU u u' := (List.pairwise_cons.1 hpw).1
    have hclean1 : ∀ u' ∈ us,
        (placeUnitFF gen maxB u DAYS st).planned.any (matchesUnit u') = false := by
      intro u' hu'
      rcases hcases with hsame | ⟨blk, happ, hbt, hbl⟩
      · rw [hsame]
        exact hclean u' (List.mem_cons_of_mem u hu')
      · rw [happ, List.any_append, hclean u' (List.mem_cons_of_mem u hu')]
        have : matchesUnit u' blk = false := by
          rw [Bool.eq_false_iff]
          intro hmt
          obtain ⟨ht, hl⟩ := (matchesUnit_eq_true_iff u' blk).1 hmt
          rw [hbt] at ht
          rw [hbl] at hl
          exact hkey u' hu' ⟨Option.some.inj ht.symm |>.symm, Option.some.inj hl.symm |>.symm⟩
        simp [this]
    have hp1 : (placeUnitFF gen maxB u DAYS st).planned.Pairwise keyP := by
      rcases hcases with hsame | ⟨blk, happ, hbt, hbl⟩
      · rw [hsame]
        exact hp
      · rw [happ, List.pairwise_append]
        refine ⟨hp, List.pairwise_singleton _ _, ?_⟩
        intro a ha b hb
        rw [List.mem_singleton.1 hb]
        intro ⟨h1, h2⟩
        have hfalse : matchesUnit u a = false := by
          have := hclean u (List.mem_cons_self u us)
          rw [List.any_eq_false] at this
          simpa using this a ha
        rw [Bool.eq_false_iff] at hfalse
        exact hfalse ((matchesUnit_eq_true_iff u a).2 ⟨by rw [h1, hbt], by rw [h2, hbl]⟩)
    obtain ⟨ihe, ihp⟩ := ih (placeUnitFF gen maxB u DAYS st)
      (List.pairwise_cons.1 hpw).2 hclean1 hp1
    refine ⟨?_, ihp⟩
    show runUnits gen maxB us (placeUnit gen maxB u DAYS st) = _
    rw [hponeq]
    exact ihe

/-- C3: with pairwise-distinct task ids, the scheduler's placement loop is
exactly the spec's first-fit / first-eligible-day / early-return policy
(so a unit that fits nowhere yields no block and no error), and no work
unit ever yields more than one planned block. -/
theorem autoPlan_eq_first_fit (gen : ℕ → String) (score : Task → ℤ) (p : Preferences)
    (busyBlocks : List BusyBlock) (tasks : List Task)
    (hids : tasks.Pairwise fun a b => a.id ≠ b.id) :
    autoPlan gen score p busyBlocks tasks = autoPlanFirstFit gen score p busyBlocks tasks ∧
    (autoPlan gen score p busyBlocks tasks).Pairwise keyP := by
  have hpw := expandUnits_key_pairwise p.workBlockMins score tasks hids
  have hpwsorted : (List.insertionSort unitGe
      (expandUnits p.workBlockMins score tasks)).Pairwise keyU :=
    ((List.perm_insertionSort unitGe _).pairwise_iff fun h => keyU_symm h).2 hpw
  have h := runUnits_eq_FF gen p.maxBlocksPerDay
    (List.insertionSort unitGe (expandUnits p.workBlockMins score tasks))
    ⟨buildFreeGrid p busyBlocks, [], fun _ => 0, 0⟩ hpwsorted
    (fun u _ => rfl) List.Pairwise.nil
  constructor
  · unfold autoPlan autoPlanFirstFit
    dsimp only
    rw [h.1]
  · unfold autoPlan
    dsimp only
    rw [h.1]
    exact ((List.perm_insertionSort plannedLe _).pairwise_iff fun hx => keyP_symm hx).2 h.2

/-- Witness for C3 at a concrete two-task input. -/
theorem autoPlan_eq_first_fit_witness :
    ([(⟨"t1", "Exam", "2026-01-01", .high, 120, false, 0⟩ : Task),
        ⟨"t2", "Essay", "2026-01-02", .low, 60, false, 0⟩].Pairwise fun a b => a.id ≠ b.id) ∧
    autoPlan (fun _ => "x") (fun _ => 0) ⟨50, 1, 6, 22⟩ []
        [⟨"t1", "Exam", "2026-01-01", .high, 120, false, 0⟩,
          ⟨"t2", "Essay", "2026-01-02", .low, 60, false, 0⟩]
      = autoPlanFirstFit (fun _ => "x") (fun _ => 0) ⟨50, 1, 6, 22⟩ []
        [⟨"t1", "Exam", "2026-01-01", .high, 120, false, 0⟩,
          ⟨"t2", "Essay", "2026-01-02", .low, 60, false, 0⟩] :=
  ⟨by decide,
    (autoPlan_eq_first_fit (fun _ => "x") (fun _ => 0) ⟨50, 1, 6, 22⟩ []
      [⟨"t1", "Exam", "2026-01-01", .high, 120, false, 0⟩,
        ⟨"t2", "Essay", "2026-01-02", .low, 60, false, 0⟩] (by decide)).1⟩

/-! ### Order-independence of the free-time computer (claim C6) -/

/-- Strict separation: a positive gap between consecutive intervals. -/
def sepS (x y : Ivl) : Prop := x.stop < y.start

theorem subPieces_pairwiseS {bs be : ℤ} (hvalid : bs < be) (s : Ivl) :
    (subPieces bs be s).Pairwise sepS := by
  unfold subPieces
  split_ifs <;> simp_all [sepS]

theorem flatMap_subPieces_pairwiseS {bs be : ℤ} (hvalid : bs < be) {slots : List Ivl}
    (h : slots.Pairwise sepS) :
    (slots.flatMap (subPieces bs be)).Pairwise sepS := by
  rw [List.pairwise_flatMap]
  constructor
  · intro s _
    exact subPieces_pairwiseS hvalid s
  · refine h.imp_of_mem ?_
    intro a b _ _ hab x hx y hy
    have hxa := subPieces_subset hx
    have hyb := subPieces_subset hy
    unfold sepS at *
    omega

theorem stepSlots_pairwiseS {bs be : ℤ} (hvalid : bs < be) {slots : List Ivl}
    (h : slots.Pairwise sepS) : (stepSlots bs be slots).Pairwise sepS := by
  have hsep : slots.Pairwise ivlSep := h.imp (fun hab => le_of_lt hab)
  rw [stepSlots_eq_filter hvalid.le hsep]
  exact (flatMap_subPieces_pairwiseS hvalid h).sublist (List.filter_sublist _)

theorem fold_stepSlots_pairwiseS (l : List BusyBlock)
    (hl : ∀ b ∈ l, b.startMin < b.endMin) (slots : List Ivl) (h : slots.Pairwise sepS) :
    (l.foldl (fun slots b => stepSlots b.startMin b.endMin slots) slots).Pairwise sepS := by
  induction l generalizing slots with
  | nil => exact h
  | cons b bs ih =>
    exact ih (fun b' hb' => hl b' (List.mem_cons_of_mem b hb')) _
      (stepSlots_pairwiseS (hl b (List.mem_cons_self b bs)) h)

/-- Two strictly separated lists of nonempty intervals covering the same
integer points are equal. -/
theorem strictSep_unique (l1 : List Ivl) :
    ∀ l2 : List Ivl, l1.Pairwise sepS → l2.Pairwise sepS →
      (∀ x ∈ l1, x.start < x.stop) → (∀ x ∈ l2, x.start < x.stop) →
      (∀ z : ℤ, (∃ iv ∈ l1, iv.start ≤ z ∧ z < iv.stop) ↔
        (∃ iv ∈ l2, iv.start ≤ z ∧ z < iv.stop)) →
      l1 = l2 := by
  induction l1 with
  | nil =>
    intro l2 _ _ _ hne2 hset
    cases l2 with
    | nil => rfl
    | cons y ys =>
      exfalso
      obtain ⟨iv, hiv, _, _⟩ := (hset y.start).2
        ⟨y, List.mem_cons_self y ys, le_refl _, hne2 y (List.mem_cons_self y ys)⟩
      exact absurd hiv (List.not_mem_nil iv)
  | cons x xs ih =>
    intro l2 h1 h2 hne1 hne2 hset
    cases l2 with
    | nil =>
      exfalso
      obtain ⟨iv, hiv, _, _⟩ := (hset x.start).1
        ⟨x, List.mem_cons_self x xs, le_refl _, hne1 x (List.mem_cons_self x xs)⟩
      exact absurd hiv (List.not_mem_nil iv)
    | cons y ys =>
      have hmin1 : ∀ iv ∈ x :: xs, x.start ≤ iv.start := by
        intro iv hiv
        rcases List.mem_cons.1 hiv with rfl | hiv'
        · exact le_refl _
        · have := (List.pairwise_cons.1 h1).1 iv hiv'
          have := hne1 x (List.mem_cons_self x xs)
          unfold sepS at *
          omega
      have hmin2 : ∀ iv ∈ y :: ys, y.start ≤ iv.start := by
        intro iv hiv
        rcases List.mem_cons.1 hiv with rfl | hiv'
        · exact le_refl _
        · have := (List.pairwise_cons.1 h2).1 iv hiv'
          have := hne2 y (List.mem_cons_self y ys)
          unfold sepS at *
          omega
      have hxy : x.start = y.start := by
        obtain ⟨iv, hiv, hivs, _⟩ := (hset x.start).1
          ⟨x, List.mem_cons_self x xs, le_refl _, hne1 x (List.mem_cons_self x xs)⟩
        obtain ⟨iv', hiv', hivs', _⟩ := (hset y.start).2
          ⟨y, List.mem_cons_self y ys, le_refl _, hne2 y (List.mem_cons_self y ys)⟩
        have h1' := hmin2 iv hiv
        have h2' := hmin1 iv' hiv'
        omega
      have hstop : x.stop = y.stop := by
        by_contra hne
        rcases lt_or_gt_of_ne hne with hlt | hgt
        · obtain ⟨iv, hiv, hivs, hivt⟩ := (hset x.stop).2
            ⟨y, List.mem_cons_self y ys, by
              have := hne1 x (List.mem_cons_self x xs)
              omega, hlt⟩
          rcases List.mem_cons.1 hiv with rfl | hiv'
          · omega
          · have := (List.pairwise_cons.1 h1).1 iv hiv'
            unfold sepS at this
            omega
        · obtain ⟨iv, hiv, hivs, hivt⟩ := (hset y.stop).1
            ⟨x, List.mem_cons_self x xs, by
              have := hne2 y (List.mem_cons_self y ys)
              omega, hgt⟩
          rcases List.mem_cons.1 hiv with rfl | hiv'
          · omega
          · have := (List.pairwise_cons.1 h2).1 iv hiv'
            unfold sepS at this
            omega
      have htail : xs = ys := by
        refine ih ys (List.pairwise_cons.1 h1).2 (List.pairwise_cons.1 h2).2
          (fun iv hiv => hne1 iv (List.mem_cons_of_mem x hiv))
          (fun iv hiv => hne2 iv (List.mem_cons_of_mem y hiv)) ?_
        intro z
        constructor
        · rintro ⟨iv, hiv, hs, ht⟩
          have hz : x.stop < z := by
            have := (List.pairwise_cons.1 h1).1 iv hiv
            unfold sepS at this
            omega
          obtain ⟨iv2, hiv2, h2s, h2t⟩ := (hset z).1 ⟨iv, List.mem_cons_of_mem x hiv, hs, ht⟩
          rcases List.mem_cons.1 hiv2 with rfl | hiv2'
          · omega
          · exact ⟨iv2, hiv2', h2s, h2t⟩
        · rintro ⟨iv, hiv, hs, ht⟩
          have hz : y.stop < z := by
            have := (List.pairwise_cons.1 h2).1 iv hiv
            unfold sepS at this
            omega
          obtain ⟨iv2, hiv2, h2s, h2t⟩ := (hset z).2 ⟨iv, List.mem_cons_of_mem y hiv, hs, ht⟩
          rcases List.mem_cons.1 hiv2 with rfl | hiv2'
          · omega
          · exact ⟨iv2, hiv2', h2s, h2t⟩
      have hx : x = y := by
        obtain ⟨xs', xt'⟩ := x
        obtain ⟨ys', yt'⟩ := y
        simp only [Ivl.mk.injEq]
        exact ⟨hxy, hstop⟩
      rw [hx, htail]

theorem stepSlots_nil (bs be : ℤ) : stepSlots bs be [] = [] := rfl

theorem fold_stepSlots_nil (l : List BusyBlock) :
    l.foldl (fun slots b => stepSlots b.startMin b.endMin slots) [] = [] := by
  induction l with
  | nil => rfl
  | cons b bs ih => simpa [stepSlots_nil] using ih

theorem fold_stepSlots_degenerate {winS winE : ℤ} (hdeg : winE - winS < 15)
    (l : List BusyBlock) (hl : l ≠ []) :
    l.foldl (fun slots b => stepSlots b.startMin b.endMin slots) [⟨winS, winE⟩] = [] := by
  cases l with
  | nil => exact absurd rfl hl
  | cons b bs =>
    rw [List.foldl_cons]
    have h1 : stepSlots b.startMin b.endMin [⟨winS, winE⟩] = [] := by
      unfold stepSlots
      have hfe : (([⟨winS, winE⟩] : List Ivl).flatMap
          (subPieces b.startMin b.endMin)).filter bigIvl = [] := by
        rw [List.filter_eq_nil_iff]
        intro piece hpiece
        rw [List.flatMap_cons, List.flatMap_nil, List.append_nil] at hpiece
        have hsub := subPieces_subset hpiece
        unfold bigIvl
        simp only [decide_eq_true_eq, not_le]
        simp only at hsub
        omega
      rw [hfe]
      rfl
    rw [h1]
    exact fold_stepSlots_nil bs

/-- C6: the free grid does not depend on the order in which the busy
blocks are supplied. -/
theorem buildFreeGrid_perm_invariant (p : Preferences) (busy1 busy2 : List BusyBlock)
    (hvalid : ∀ b ∈ busy1, b.startMin < b.endMin) (hperm : List.Perm busy1 busy2) :
    buildFreeGrid p busy1 = buildFreeGrid p busy2 := by
  have hvalid2 : ∀ b ∈ busy2, b.startMin < b.endMin := fun b hb =>
    hvalid b (hperm.symm.subset hb)
  funext d
  rw [buildFreeGrid_day, buildFreeGrid_day]
  have hpermf : List.Perm (busy1.filter fun b => decide (b.day = d))
      (busy2.filter fun b => decide (b.day = d)) := hperm.filter _
  by_cases hwin : p.startHour < p.endHour
  · have hinit : GridInv (p.startHour * 60) (p.endHour * 60) []
        [⟨p.startHour * 60, p.endHour * 60⟩] := gridInv_init (by omega)
    have hi1 := gridInv_fold (busy1.filter fun b => decide (b.day = d))
      (fun b hb => hvalid b (List.mem_filter.1 hb).1) [] _ hinit
    have hi2 := gridInv_fold (busy2.filter fun b => decide (b.day = d))
      (fun b hb => hvalid2 b (List.mem_filter.1 hb).1) [] _ hinit
    rw [List.nil_append] at hi1 hi2
    obtain ⟨p11, p12, p13, p14, p15⟩ := hi1
    obtain ⟨p21, p22, p23, p24, p25⟩ := hi2
    have hS1 := fold_stepSlots_pairwiseS (busy1.filter fun b => decide (b.day = d))
      (fun b hb => hvalid b (List.mem_filter.1 hb).1)
      [⟨p.startHour * 60, p.endHour * 60⟩] (List.pairwise_singleton _ _)
    have hS2 := fold_stepSlots_pairwiseS (busy2.filter fun b => decide (b.day = d))
      (fun b hb => hvalid2 b (List.mem_filter.1 hb).1)
      [⟨p.startHour * 60, p.endHour * 60⟩] (List.pairwise_singleton _ _)
    refine strictSep_unique _ _ hS1 hS2
      (fun iv hiv => by have := p13 iv hiv; unfold ivlLen at this; omega)
      (fun iv hiv => by have := p23 iv hiv; unfold ivlLen at this; omega) ?_
    intro z
    constructor
    · rintro ⟨iv, hiv, hs, ht⟩
      obtain ⟨iv2, hiv2, hsub1, hsub2⟩ := p25 iv.start iv.stop (p12 iv hiv).1
        (p12 iv hiv).2
        (by have := p13 iv hiv; unfold ivlLen at this; omega)
        (fun b hb => by
          have := p14 iv hiv b (hpermf.symm.subset hb)
          unfold ivlAvoid at this
          exact this)
      exact ⟨iv2, hiv2, by omega, by omega⟩
    · rintro ⟨iv, hiv, hs, ht⟩
      obtain ⟨iv2, hiv2, hsub1, hsub2⟩ := p15 iv.start iv.stop (p22 iv hiv).1
        (p22 iv hiv).2
        (by have := p23 iv hiv; unfold ivlLen at this; omega)
        (fun b hb => by
          have := p24 iv hiv b (hpermf.subset hb)
          unfold ivlAvoid at this
          exact this)
      exact ⟨iv2, hiv2, by omega, by omega⟩
  · have hdeg : p.endHour * 60 - p.startHour * 60 < 15 := by omega
    by_cases hnil : (busy1.filter fun b => decide (b.day = d)) = []
    · have hnil2 : (busy2.filter fun b => decide (b.day = d)) = [] := by
        rw [hnil] at hpermf
        exact hpermf.symm.eq_nil
      rw [hnil, hnil2]
    · have hnil2 : (busy2.filter fun b => decide (b.day = d)) ≠ [] := by
        intro h
        rw [h] at hpermf
        exact hnil hpermf.eq_nil
      rw [fold_stepSlots_degenerate hdeg _ hnil,
        fold_stepSlots_degenerate hdeg _ hnil2]

/-- Witness for C6 at a concrete two-block permutation. -/
theorem buildFreeGrid_perm_invariant_witness :
    (∀ b ∈ [(⟨"b1", Day.mon, 540, 600, "X"⟩ : BusyBlock), ⟨"b2", Day.mon, 700, 800, "Y"⟩],
      b.startMin < b.endMin) ∧
    buildFreeGrid ⟨50, 3, 6, 22⟩
        [⟨"b1", Day.mon, 540, 600, "X"⟩, ⟨"b2", Day.mon, 700, 800, "Y"⟩]
      = buildFreeGrid ⟨50, 3, 6, 22⟩
        [⟨"b2", Day.mon, 700, 800, "Y"⟩, ⟨"b1", Day.mon, 540, 600, "X"⟩] :=
  ⟨by decide,
    buildFreeGrid_perm_invariant ⟨50, 3, 6, 22⟩
      [⟨"b1", Day.mon, 540, 600, "X"⟩, ⟨"b2", Day.mon, 700, 800, "Y"⟩]
      [⟨"b2", Day.mon, 700, 800, "Y"⟩, ⟨"b1", Day.mon, 540, 600, "X"⟩]
      (by decide) (List.Perm.swap _ _ _)⟩

end Planner
